import Mathlib

/-!
Shallow embedding of `src/option_data_collector.py` (an option-chain data
collector built on a brokerage quote SDK) and proofs about its core
functions: the value normalizer `to_python`, the compatible method invoker
`try_call`, the batching helpers `chunked` / `fetch_batched`, the chain
helpers `extract_option_symbols` / `filter_chain_rows`, and the
orchestration `main` (embedded as `runMain` with the per-symbol loop
`perSymbolLoop`).

Modelling conventions:
- Python values are the inductive `PyValue`; machine floats are modelled as
  exact rationals, `datetime` / `date` objects by their ISO string,
  `Decimal` objects by sign / coefficient digits / exponent.
- Fallible Python code returns `Except`; an uncaught Python exception is an
  `Except.error`.
- Python dict keys are modelled as strings (every dict built by this script
  has string keys, and `str(k)` is then the identity).
-/

/-! ### Character and string helpers (models of the Python builtins used) -/

/-- The decimal digit character for a digit value below ten. -/
def digitChar (d : Nat) : Char := Char.ofNat (48 + d)

/-- Numeric value of a decimal digit character, if it is one. -/
def charDigitVal (c : Char) : Option Nat :=
  if 48 ≤ c.toNat ∧ c.toNat ≤ 57 then some (c.toNat - 48) else Option.none

/-- Little-endian base-ten digits of `n`, with explicit fuel (the fuel is
always instantiated with `n` itself, which is enough). -/
def natDigitsGo : Nat → Nat → List Nat
  | _, 0 => []
  | 0, _ + 1 => []
  | fuel + 1, n + 1 => (n + 1) % 10 :: natDigitsGo fuel ((n + 1) / 10)

/-- Decimal digit characters of a natural number, as Python prints it. -/
def natChars (n : Nat) : List Char :=
  if n = 0 then ['0'] else ((natDigitsGo n n).map digitChar).reverse

/-- Characters of an integer printed with an explicit sign, as produced by
the Python format `%+d` (used in the exponent part of `str(Decimal)`). -/
def intSignedChars (a : Int) : List Char :=
  if a < 0 then '-' :: natChars a.natAbs else '+' :: natChars a.toNat

/-- Code-point lexicographic comparison of character lists; this is the
order Python uses to compare strings. -/
def lexLeChars : List Char → List Char → Bool
  | [], _ => true
  | _ :: _, [] => false
  | a :: as, b :: bs =>
    if a.toNat < b.toNat then true
    else if a.toNat = b.toNat then lexLeChars as bs
    else false

/-- Python string order (`a <= b`), as a proposition on Lean strings. -/
def strLe (a b : String) : Prop := lexLeChars a.data b.data = true

instance (a b : String) : Decidable (strLe a b) := by
  unfold strLe; infer_instance

instance : IsTotal String strLe :=
  ⟨by
    intro a b
    unfold strLe
    generalize a.data = x
    generalize b.data = y
    induction x generalizing y with
    | nil => left; simp [lexLeChars]
    | cons c cs ih =>
      cases y with
      | nil => right; simp [lexLeChars]
      | cons d ds =>
        rcases Nat.lt_trichotomy c.toNat d.toNat with h | h | h
        · left; simp [lexLeChars, h]
        · rcases ih ds with h2 | h2
          · left; simp [lexLeChars, h, h2]
          · right; simp [lexLeChars, h.symm, h2]
        · right; simp [lexLeChars, h]⟩

instance : IsTrans String strLe :=
  ⟨by
    intro a b c
    unfold strLe
    generalize a.data = x
    generalize b.data = y
    generalize c.data = z
    induction x generalizing y z with
    | nil => intro _ _; simp [lexLeChars]
    | cons p ps ih =>
      intro h1 h2
      cases y with
      | nil => simp [lexLeChars] at h1
      | cons q qs =>
        cases z with
        | nil => simp [lexLeChars] at h2
        | cons r rs =>
          simp only [lexLeChars] at h1 h2 ⊢
          by_cases hpq : p.toNat < q.toNat
          · by_cases hqr : q.toNat < r.toNat
            · simp [Nat.lt_trans hpq hqr]
            · simp only [if_pos hpq] at h1
              simp only [if_neg hqr] at h2
              by_cases hqr2 : q.toNat = r.toNat
              · simp [hqr2 ▸ hpq]
              · simp [hqr2] at h2
          · simp only [if_neg hpq] at h1
            by_cases hpq2 : p.toNat = q.toNat
            · simp only [if_pos hpq2] at h1
              by_cases hqr : q.toNat < r.toNat
              · simp [hpq2 ▸ hqr]
              · simp only [if_neg hqr] at h2
                by_cases hqr2 : q.toNat = r.toNat
                · rw [if_pos hqr2] at h2
                  have : ¬ p.toNat < r.toNat := by omega
                  simp [this, hpq2.trans hqr2, ih qs rs h1 h2]
                · simp [hqr2] at h2
            · simp [hpq2] at h1⟩

/-- Model of the Python `str.upper` for ASCII characters. -/
def pyUpperChar (c : Char) : Char :=
  if 'a' ≤ c ∧ c ≤ 'z' then Char.ofNat (c.toNat - 32) else c

/-- Model of the Python `str.upper` (the symbols this script handles are
ASCII). -/
def pyUpper (s : String) : String := ⟨s.data.map pyUpperChar⟩

/-- Python whitespace test, for the characters `str.strip` removes. -/
def isPySpace (c : Char) : Bool := c = ' ' ∨ c = '\t' ∨ c = '\n' ∨ c = '\r'

/-- Model of the Python `str.strip()`. -/
def pyStrip (s : String) : String :=
  ⟨((s.data.dropWhile isPySpace).reverse.dropWhile isPySpace).reverse⟩

/-- Whether an attribute name is private in the Python sense, i.e. starts
with an underscore (`k.startswith("_")`). -/
def startsUnderscore (k : String) : Bool :=
  match k.data with
  | [] => false
  | c :: _ => c = '_'

/-- Python `repr` of a list of strings, as interpolated by an f-string
(assuming the strings need no escaping, as the SDK method names do not). -/
def pyListRepr (names : List String) : String :=
  "[" ++ String.intercalate ", " (names.map (fun s => "\x27" ++ s ++ "\x27")) ++ "]"

/-! ### Python `Decimal` values

A finite `decimal.Decimal` is a sign, a non-empty list of coefficient
digits (most significant first) and a decimal exponent.  `pyDecimalChars`
renders exactly the string `str(value)` produces (the to-scientific-string
algorithm of the decimal specification, as implemented by CPython). -/

structure PyDecimal where
  sign : Bool
  digits : List Nat
  exp : Int

/-- Well-formedness of a decimal: a non-empty coefficient of base-ten
digits. -/
def PyDecimal.WF (d : PyDecimal) : Prop :=
  d.digits ≠ [] ∧ ∀ x ∈ d.digits, x < 10

instance (d : PyDecimal) : Decidable d.WF := by
  unfold PyDecimal.WF; infer_instance

/-- Numeric value of a big-endian digit list. -/
def digitsVal (ds : List Nat) : Nat := Nat.ofDigits 10 ds.reverse

/-- Exact rational value of a decimal. -/
def decimalVal (d : PyDecimal) : ℚ :=
  (if d.sign then -1 else 1) * (digitsVal d.digits : ℚ) * (10 : ℚ) ^ d.exp

/-- The character list `str(value)` produces for a finite `Decimal`
(CPython `Decimal.__str__`, non-engineering mode). -/
def pyDecimalChars (d : PyDecimal) : List Char :=
  let ds := d.digits.map digitChar
  let n : Int := d.digits.length
  let leftdigits : Int := d.exp + n
  let dotplace : Int := if d.exp ≤ 0 ∧ leftdigits > -6 then leftdigits else 1
  let intfrac : List Char :=
    if dotplace ≤ 0 then
      '0' :: '.' :: (List.replicate (-dotplace).toNat '0' ++ ds)
    else if dotplace ≥ n then
      ds ++ List.replicate (dotplace - n).toNat '0'
    else
      ds.take dotplace.toNat ++ '.' :: ds.drop dotplace.toNat
  let exppart : List Char :=
    if leftdigits = dotplace then []
    else 'E' :: intSignedChars (leftdigits - dotplace)
  (if d.sign then ['-'] else []) ++ intfrac ++ exppart

/-- The string `str(value)` produces for a finite `Decimal`. -/
def pyDecimalStr (d : PyDecimal) : String := ⟨pyDecimalChars d⟩

/-! ### A parser giving the exact value of decimal / scientific literals

`parseSciChars` recovers the exact rational value of a decimal literal with
an optional fraction and exponent; it is the semantic reading of the
strings `str(Decimal)` emits, and also models the numeric core of the
Python `float(str)` coercion (special forms such as `inf`, `nan`,
underscores and surrounding whitespace are outside the model). -/

/-- Split a character list at the first `E` or `e`. -/
def splitOnE : List Char → List Char × Option (List Char)
  | [] => ([], Option.none)
  | c :: rest =>
    if c = 'E' ∨ c = 'e' then ([], some rest)
    else
      let p := splitOnE rest
      (c :: p.1, p.2)

/-- Split a character list at the first dot. -/
def splitOnDot : List Char → List Char × Option (List Char)
  | [] => ([], Option.none)
  | c :: rest =>
    if c = '.' then ([], some rest)
    else
      let p := splitOnDot rest
      (c :: p.1, p.2)

/-- Value of a string of digit characters (empty means zero); fails on a
non-digit. -/
def charsNat : List Char → Option Nat
  | [] => some 0
  | c :: rest => do
    let d ← charDigitVal c
    let v ← charsNat rest
    pure (d * 10 ^ rest.length + v)

/-- Parse an optionally signed digit run, as in an exponent part. -/
def parseExpPart : List Char → Option Int
  | '+' :: rest => if rest = [] then Option.none else (charsNat rest).map Int.ofNat
  | '-' :: rest => if rest = [] then Option.none else (charsNat rest).map (fun v => -(v : Int))
  | cs => if cs = [] then Option.none else (charsNat cs).map Int.ofNat

/-- Parse an unsigned mantissa `digits[.digits]`. -/
def parseMantissa (cs : List Char) : Option ℚ :=
  let p := splitOnDot cs
  match p.2 with
  | Option.none => if p.1 = [] then Option.none else (charsNat p.1).map (fun v => (v : ℚ))
  | some fp =>
    if p.1 = [] ∧ fp = [] then Option.none
    else do
      let i ← charsNat p.1
      let f ← charsNat fp
      pure ((i : ℚ) + (f : ℚ) / (10 : ℚ) ^ fp.length)

/-- Parse an optionally signed mantissa. -/
def parseSignedMantissa : List Char → Option ℚ
  | '-' :: rest => (parseMantissa rest).map (fun q => -q)
  | '+' :: rest => parseMantissa rest
  | cs => parseMantissa cs

/-- Parse a decimal literal with optional exponent to its exact rational
value. -/
def parseSciChars (cs : List Char) : Option ℚ :=
  let p := splitOnE cs
  match p.2 with
  | Option.none => parseSignedMantissa p.1
  | some es => do
    let m ← parseSignedMantissa p.1
    let e ← parseExpPart es
    pure (m * (10 : ℚ) ^ e)

/-! ### Python values and the normalizer `to_python` -/

/-- Model of the Python values this script handles.  `list` also stands for
tuples and sets (all normalized to lists), `datetime` for both `date` and
`datetime` (carrying the ISO string `isoformat()` returns), `enum` for an
`Enum` member carrying its underlying `value`, `dataclass` for a dataclass
instance with its declared fields, and `obj` for any other object carrying
its `__dict__`. -/
inductive PyValue where
  | pynone
  | bool (b : Bool)
  | int (n : Int)
  | float (q : ℚ)
  | str (s : String)
  | decimal (d : PyDecimal)
  | datetime (iso : String)
  | enum (v : PyValue)
  | dataclass (fields : List (String × PyValue))
  | dict (kvs : List (String × PyValue))
  | list (xs : List PyValue)
  | obj (attrs : List (String × PyValue))

/-- Python truthiness of a value (`bool(v)`). -/
def truthy : PyValue → Bool
  | .pynone => false
  | .bool b => b
  | .int n => n ≠ 0
  | .float q => q ≠ 0
  | .str s => s ≠ ""
  | .decimal d => decimalVal d ≠ 0
  | .datetime _ => true
  | .enum _ => true
  | .dataclass _ => true
  | .dict kvs => !kvs.isEmpty
  | .list xs => !xs.isEmpty
  | .obj _ => true

/-- Python `dict.get`: the value under a key, if present (dict keys are
unique, so the first match is the match). -/
def pyGet (kvs : List (String × PyValue)) (k : String) : Option PyValue :=
  (kvs.find? (fun p => p.1 == k)).map (fun p => p.2)

/-- `row.get(k)` as a value: `None` when the key is absent. -/
def rowGet (kvs : List (String × PyValue)) (k : String) : PyValue :=
  (pyGet kvs k).getD .pynone

/-- The string content of a value, when it is a string. -/
def pyStrOf : PyValue → Option String
  | .str s => some s
  | _ => Option.none

/-- Model of the Python `float(v)` coercion on the values it accepts.
Floats are modelled as exact rationals, so `float(Decimal)` and
`float(str)` are exact here rather than rounded to binary64; the claims
about the strike filter only rely on equality of the coerced values. -/
def pyFloat : PyValue → Option ℚ
  | .int n => some (n : ℚ)
  | .float q => some q
  | .bool b => some (if b then 1 else 0)
  | .decimal d => some (decimalVal d)
  | .str s => parseSciChars s.data
  | _ => Option.none

mutual
/-- The normalizer `to_python` (source lines 63-81): recursively converts
an SDK value to a JSON-serializable structure.  Branches follow the source
`isinstance` chain: `None`; dataclasses via `asdict` (whose deep conversion
of nested containers agrees with the recursive normalization modelled
here); dicts with keys coerced by `str` (the identity on the string keys
this script sees); lists / tuples / sets; `datetime` / `date` via
`isoformat()`; `Decimal` via `str`; `Enum` members via `value.value`,
returned as-is; any object with `__dict__` via its public attributes;
anything else unchanged. -/
def to_python : PyValue → PyValue
  | .pynone => .pynone
  | .dataclass fields => .dict (to_python_pairs fields)
  | .dict kvs => .dict (to_python_pairs kvs)
  | .list xs => .list (to_python_list xs)
  | .datetime iso => .str iso
  | .decimal d => .str (pyDecimalStr d)
  | .enum v => v
  | .obj attrs => .dict (to_python_attrs attrs)
  | .bool b => .bool b
  | .int n => .int n
  | .float q => .float q
  | .str s => .str s

/-- Elementwise normalization of a list. -/
def to_python_list : List PyValue → List PyValue
  | [] => []
  | v :: vs => to_python v :: to_python_list vs

/-- Valuewise normalization of a string-keyed mapping. -/
def to_python_pairs : List (String × PyValue) → List (String × PyValue)
  | [] => []
  | (k, v) :: rest => (k, to_python v) :: to_python_pairs rest

/-- Normalization of an attribute mapping, dropping the private
(underscore-prefixed) attributes. -/
def to_python_attrs : List (String × PyValue) → List (String × PyValue)
  | [] => []
  | (k, v) :: rest =>
    if startsUnderscore k then to_python_attrs rest
    else (k, to_python v) :: to_python_attrs rest
end

/-! ### Outputs of the normalizer, and where enums are benign -/

mutual
/-- A value already in the normal form `to_python` is meant to produce:
null, booleans, numbers, strings, lists and string-keyed mappings only. -/
def NormalizedB : PyValue → Bool
  | .pynone => true
  | .bool _ => true
  | .int _ => true
  | .float _ => true
  | .str _ => true
  | .list xs => NormalizedListB xs
  | .dict kvs => NormalizedPairsB kvs
  | _ => false

/-- All elements normalized. -/
def NormalizedListB : List PyValue → Bool
  | [] => true
  | v :: vs => NormalizedB v && NormalizedListB vs

/-- All mapping values normalized. -/
def NormalizedPairsB : List (String × PyValue) → Bool
  | [] => true
  | (_, v) :: rest => NormalizedB v && NormalizedPairsB rest
end

mutual
/-- Every enumeration member inside the value has an underlying value that
is already in normal form (in particular every enum member whose value is a
primitive qualifies). -/
def EnumOkB : PyValue → Bool
  | .pynone => true
  | .bool _ => true
  | .int _ => true
  | .float _ => true
  | .str _ => true
  | .decimal _ => true
  | .datetime _ => true
  | .enum v => NormalizedB v
  | .list xs => EnumOkListB xs
  | .dict kvs => EnumOkPairsB kvs
  | .dataclass fields => EnumOkPairsB fields
  | .obj attrs => EnumOkPairsB attrs

/-- All elements enum-benign. -/
def EnumOkListB : List PyValue → Bool
  | [] => true
  | v :: vs => EnumOkB v && EnumOkListB vs

/-- All mapping values enum-benign. -/
def EnumOkPairsB : List (String × PyValue) → Bool
  | [] => true
  | (_, v) :: rest => EnumOkB v && EnumOkPairsB rest
end

/-! ### The compatible method invoker `try_call` (source lines 89-107)

A client is modelled as a partial map from method names to behaviours:
`ctx name = Option.none` means `getattr(ctx, name, None)` is `None`
(the method is absent); `some (Except.error e)` means the method is present
but its invocation raises `e`; `some (Except.ok r)` means it is present and
returns `r`.  The invoker either returns the pair of the used name and its
result, or fails. -/

/-- An uncaught Python exception, as `try_call` and its callers see it:
either the distinct `AttributeError` the invoker itself raises when no
candidate name is present (carrying the candidate list it interpolates into
its message), a re-raised API failure, or a builtin coercion error. -/
inductive PyErr (ε : Type) where
  | attributeError (names : List String)
  | raised (e : ε)
  | typeError
  | valueError

/-- The message `str(exc)` yields for an uncaught error, given the message
function of the underlying API failures. -/
def pyErrMsg (toMsg : ε → String) : PyErr ε → String
  | .attributeError names => "未找到可用方法: " ++ pyListRepr names
  | .raised e => toMsg e
  | .typeError => "TypeError"
  | .valueError => "ValueError"

/-- The loop of `try_call`: walk the remaining candidates carrying the last
raised failure; at the end re-raise it, or raise the distinct
`AttributeError` naming the full candidate list if nothing was present. -/
def try_call_go (ctx : String → Option (Except ε α)) (allNames : List String) :
    List String → Option ε → Except (PyErr ε) (String × α)
  | [], Option.none => .error (.attributeError allNames)
  | [], some e => .error (.raised e)
  | n :: rest, last =>
    match ctx n with
    | Option.none => try_call_go ctx allNames rest last
    | some (.ok r) => .ok (n, r)
    | some (.error e) => try_call_go ctx allNames rest (some e)

/-- `try_call(ctx, method_names, *args)` with the arguments already applied
to the client behaviour. -/
def try_call (ctx : String → Option (Except ε α)) (method_names : List String) :
    Except (PyErr ε) (String × α) :=
  try_call_go ctx method_names method_names Option.none

/-- A quote-context client: a partial map from method names to functions of
the positional argument list. -/
def Ctx (ε : Type) := String → Option (List PyValue → Except ε PyValue)

/-- `try_call(ctx, method_names, *args)` against a client taking explicit
arguments. -/
def callCtx (ctx : Ctx ε) (method_names : List String) (args : List PyValue) :
    Except (PyErr ε) (String × PyValue) :=
  try_call (fun n => (ctx n).map (fun f => f args)) method_names

/-! ### Batching: `chunked` (source lines 84-86) and `fetch_batched`
(source lines 184-202) -/

/-- `chunked(items, size)`: the contiguous slices `items[i : i + size]` for
`i = 0, size, 2 * size, ...`.  For `size = 0` the Python `range` would
raise; callers validated `size > 0`, and the model returns no chunks. -/
def chunked (items : List String) (size : Nat) : List (List String) :=
  if h : size = 0 ∨ items = [] then []
  else items.take size :: chunked (items.drop size) size
termination_by items.length
decreasing_by
  simp only [not_or] at h
  have h1 : 0 < size := Nat.pos_of_ne_zero h.1
  have h2 : 0 < items.length := List.length_pos.mpr h.2
  simp only [List.length_drop]
  omega

/-- The result dictionary of `fetch_batched`: the method that served the
batches (or null), the row count, and the normalized row list (stored in
the source under the caller-chosen `result_name` key, which is `"rows"` at
every call site). -/
structure FetchResult where
  method : Option String
  count : Nat
  rows : PyValue

/-- Python `used_method or method` on an optional string. -/
def pyOrStr (used : Option String) (method : String) : Option String :=
  match used with
  | some s => if s = "" then some method else some s
  | Option.none => some method

/-- Python iteration of a value, as `list.extend` consumes it: lists give
their elements, strings their characters, dicts their keys; other values
are not iterable. -/
def pyIterate : PyValue → Option (List PyValue)
  | .list xs => some xs
  | .str s => some (s.data.map (fun c => .str ⟨[c]⟩))
  | .dict kvs => some (kvs.map (fun p => PyValue.str p.1))
  | _ => Option.none

/-- The loop of `fetch_batched` over the chunks: one invoker call per
chunk, extending the accumulated rows with `rows or []` and keeping the
first recorded method name (`used_method = used_method or method`). -/
def fetch_batched_go (call : List String → Except (PyErr ε) (String × PyValue)) :
    List (List String) → Option String → List PyValue → Except (PyErr ε) FetchResult
  | [], used, acc => .ok ⟨used, acc.length, to_python (.list acc)⟩
  | b :: bs, used, acc =>
    match call b with
    | .error e => .error e
    | .ok (m, rows) =>
      if truthy rows then
        match pyIterate rows with
        | some xs => fetch_batched_go call bs (pyOrStr used m) (acc ++ xs)
        | Option.none => .error .typeError
      else fetch_batched_go call bs (pyOrStr used m) acc

/-- `fetch_batched(ctx, option_symbols, batch_size, method_names, ...)`:
partition the symbols, invoke once per chunk passing the chunk list as the
sole argument, accumulate rows, and report the method used, the row count
and the normalized rows. -/
def fetch_batched (ctx : Ctx ε) (option_symbols : List String) (batch_size : Nat)
    (method_names : List String) : Except (PyErr ε) FetchResult :=
  fetch_batched_go (fun batch => callCtx ctx method_names [.list (batch.map .str)])
    (chunked option_symbols batch_size) Option.none []

/-! ### Chain helpers: `extract_option_symbols` (source lines 205-217) and
`filter_chain_rows` (source lines 220-263) -/

/-- The truthy values of one symbol field across the chain rows, skipping
non-dict rows — the elements of one of the two set comprehensions in
`extract_option_symbols`. -/
def chainSymbolValues (option_chain : List PyValue) (field : String) : List PyValue :=
  option_chain.filterMap (fun row =>
    match row with
    | .dict kvs =>
      match pyGet kvs field with
      | some v => if truthy v then some v else Option.none
      | Option.none => Option.none
    | _ => Option.none)

/-- `extract_option_symbols(option_chain)`: the sorted deduplicated union
of the truthy call-symbol and put-symbol values.  The values are extracted
as strings (on non-string symbol values the Python `sorted` would raise;
the claims assume string symbol fields, as the vendor chain provides). -/
def extract_option_symbols (option_chain : List PyValue) : List String :=
  List.insertionSort strLe
    (((chainSymbolValues option_chain "call_symbol"
        ++ chainSymbolValues option_chain "put_symbol").filterMap pyStrOf).dedup)

/-- One emitted contract record `{"strike_price": ..., "symbol": ...,
"type": ...}`. -/
def sideRecord (row_strike : PyValue) (sym : PyValue) (ty : String) : PyValue :=
  .dict [("strike_price", row_strike), ("symbol", sym), ("type", .str ty)]

/-- The records one chain row contributes before the final symbol filter:
only the call side for `right == "call"`, only the put side for
`right == "put"`, both sides (call first) otherwise. -/
def sideRecords (kvs : List (String × PyValue)) (right : Option String) : List PyValue :=
  let rs := rowGet kvs "strike_price"
  if right = some "call" then [sideRecord rs (rowGet kvs "call_symbol") "call"]
  else if right = some "put" then [sideRecord rs (rowGet kvs "put_symbol") "put"]
  else [sideRecord rs (rowGet kvs "call_symbol") "call",
        sideRecord rs (rowGet kvs "put_symbol") "put"]

/-- The final comprehension filter `if r.get("symbol")`. -/
def recordKept (r : PyValue) : Bool :=
  match r with
  | .dict kvs => truthy (rowGet kvs "symbol")
  | _ => false

/-- Whether a value is the Python `None`. -/
def isPyNone : PyValue → Bool
  | .pynone => true
  | _ => false

/-- The strike test of line 230: skip when a strike is requested, the row
strike is present, and `float(row_strike) != float(strike)`; an uncoercible
row strike makes `float` raise. -/
def strikeSkip (strike : Option ℚ) (row_strike : PyValue) : Except Unit Bool :=
  match strike with
  | Option.none => .ok false
  | some s =>
    if isPyNone row_strike then .ok false
    else
      match pyFloat row_strike with
      | some r => .ok (decide (r ≠ s))
      | Option.none => .error ()

/-- The accumulation loop of `filter_chain_rows` (building
`selected_rows`). -/
def selectRows (strike : Option ℚ) (right : Option String) :
    List PyValue → Except Unit (List PyValue)
  | [] => .ok []
  | row :: rest =>
    match row with
    | .dict kvs => do
      let skip ← strikeSkip strike (rowGet kvs "strike_price")
      let tail ← selectRows strike right rest
      if skip then pure tail else pure (sideRecords kvs right ++ tail)
    | _ => selectRows strike right rest

/-- `filter_chain_rows(option_chain, strike, right)`: accumulate the per-row
records, then keep those with a truthy symbol. -/
def filter_chain_rows (option_chain : List PyValue) (strike : Option ℚ)
    (right : Option String) : Except Unit (List PyValue) :=
  (selectRows strike right option_chain).map (fun rows => rows.filter recordKept)

/-- Modelled from the spec (section 4.4 `filterChain`): keep each row whose
strike is absent or numerically equal to the requested strike, and emit the
requested sides per row, dropping a side with an empty symbol at emission
time.  Used to state the refinement claim about `filter_chain_rows`. -/
def specStrikeKeep (strike : Option ℚ) (row_strike : PyValue) : Bool :=
  match strike with
  | Option.none => true
  | some s => isPyNone row_strike || pyFloat row_strike == some s

/-- Modelled from the spec (section 4.4 `filterChain`): the whole filter as
one flatMap in chain-row order. -/
def filterChainSpec (option_chain : List PyValue) (strike : Option ℚ)
    (right : Option String) : List PyValue :=
  option_chain.flatMap (fun row =>
    match row with
    | .dict kvs =>
      if specStrikeKeep strike (rowGet kvs "strike_price")
      then (sideRecords kvs right).filter recordKept
      else []
    | _ => [])

/-! ### The orchestrator `main` (source lines 266-417), embedded as
`runMain`

Argument parsing, credential loading and file output are outside the
model; `date.fromisoformat(args.expiry)` is modelled by carrying the ISO
string (its validity is enforced by `parse_args` upstream), and the `date`
object passed to the chain call is the `PyValue.datetime` of that string. -/

/-- `normalize_symbol` (source lines 57-60): strip, uppercase, and correct
the known misspelling `APPL.US`. -/
def normalize_symbol (symbol : String) : String :=
  let normalized := pyUpper (pyStrip symbol)
  if normalized = "APPL.US" then "AAPL.US" else normalized

/-- One recorded per-symbol failure `{"symbol": ..., "api": ...,
"error": ...}`. -/
structure ErrEntry where
  symbol : String
  api : String
  error : String

/-- The mutable state of the per-symbol depth / trades / brokers loop. -/
structure LoopState where
  depth_method : Option String
  trade_method : Option String
  broker_method : Option String
  depth_rows : List PyValue
  trade_rows : List PyValue
  broker_rows : List PyValue
  errors : List ErrEntry

/-- The loop state before the first symbol. -/
def initLoopState : LoopState :=
  ⟨Option.none, Option.none, Option.none, [], [], [], []⟩

/-- One guarded category call: on the first success the method name is
remembered and later symbols call only that name. -/
def catCall (ctx : Ctx ε) (names : List String) (saved : Option String)
    (sym : String) : Except (PyErr ε) (String × PyValue) :=
  match saved with
  | Option.none => callCtx ctx names [.str sym]
  | some m => callCtx ctx [m] [.str sym]

/-- One `try/except` block of the loop body: on success append the row
`{"symbol": sym, "data": to_python(data)}` and remember the method; on
failure append an error entry and continue. -/
def stepCategory (ctx : Ctx ε) (toMsg : ε → String) (names : List String)
    (api : String) (sym : String) (saved : Option String) (rows : List PyValue)
    (errs : List ErrEntry) : Option String × List PyValue × List ErrEntry :=
  match catCall ctx names saved sym with
  | .ok (m, data) =>
    (some (saved.getD m),
     rows ++ [.dict [("symbol", .str sym), ("data", to_python data)]],
     errs)
  | .error e => (saved, rows, errs ++ [⟨sym, api, pyErrMsg toMsg e⟩])

/-- The per-symbol retrieval loop (source lines 340-366): for each symbol,
depth, then trades, then brokers, each failure caught individually. -/
def perSymbolLoop (ctx : Ctx ε) (toMsg : ε → String) :
    List String → LoopState → LoopState
  | [], st => st
  | sym :: rest, st =>
    let d := stepCategory ctx toMsg ["depth", "security_depth"] "depth" sym
      st.depth_method st.depth_rows st.errors
    let t := stepCategory ctx toMsg ["trades", "security_trades"] "trades" sym
      st.trade_method st.trade_rows d.2.2
    let b := stepCategory ctx toMsg ["brokers", "security_brokers"] "brokers" sym
      st.broker_method st.broker_rows t.2.2
    perSymbolLoop ctx toMsg rest
      ⟨d.1, t.1, b.1, d.2.1, t.2.1, b.2.1, b.2.2⟩

/-- The command-line arguments after `parse_args` (so `batch_size` has been
validated positive and `right`, when present, is `"call"` or `"put"`). -/
structure Args where
  symbol : String
  expiry : String
  batch_size : Nat
  strike : Option ℚ
  right : Option String

/-- How a run terminates abnormally: a `SystemExit` with a user-facing
message, or an uncaught exception. -/
inductive RunError (ε : Type) where
  | system_exit (msg : String)
  | uncaught (e : PyErr ε)

/-- The parts of the assembled result document the claims are about. -/
structure RunResult where
  used_methods : List (String × String)
  symbol : String
  available_expiry_dates : List String
  option_chain : PyValue
  option_symbols : List String
  selected_contracts : List PyValue
  option_quote : FetchResult
  static_info : FetchResult
  quote : FetchResult
  depth : FetchResult
  trades : FetchResult
  brokers : FetchResult
  errors : List ErrEntry

/-- The `used_methods[key] = result["method"]` updates guarded by
`if result.get("method")`. -/
def methodEntry (key : String) : Option String → List (String × String)
  | some m => if m = "" then [] else [(key, m)]
  | Option.none => []

/-- The candidate names for the expiry-date listing. -/
def expiryNames : List String := ["option_chain_expiry_date_list", "option_chain_expiry_date"]

/-- The candidate names for the chain retrieval. -/
def chainNames : List String := ["option_chain_info_by_date", "option_chain_by_date"]

/-- The candidate names for the batched option quote. -/
def optionQuoteNames : List String := ["option_quote", "realtime_quote_of_option"]

/-- The candidate names for the batched static info. -/
def staticInfoNames : List String := ["static_info", "security_static_info"]

/-- The candidate names for the batched market quote. -/
def quoteNames : List String := ["quote", "realtime_quote", "realtime_quotes_of_securities"]

/-- The fatal message for an unavailable expiry (source lines 286-290). -/
def expiryExitMsg (expiry symbol available : String) : String :=
  "到期日 " ++ expiry ++ " 不在可选列表中。\n标的: " ++ symbol
    ++ "\n可选到期日: " ++ available

/-- The fatal message for an empty extracted symbol set (source line
303). -/
def emptyChainExitMsg (symbol expiry : String) : String :=
  "未在 " ++ symbol ++ " " ++ expiry ++ " 的期权链中提取到期权代码。"

/-- Extract the string content of every value, failing on a non-string
(the Python `sorted` / `", ".join` over the normalized date set would raise
on a non-string member). -/
def mapStrs : List PyValue → Option (List String)
  | [] => some []
  | v :: rest => do
    let s ← pyStrOf v
    let tail ← mapStrs rest
    pure (s :: tail)

/-- Python `sorted` over a set of strings: sort the distinct elements. -/
def sortedDedup (strs : List String) : List String :=
  List.insertionSort strLe strs.dedup

/-- Python `s in vals` for a string against arbitrary values (equality of a
string with a non-string is false). -/
def pyStrMem (s : String) (vals : List PyValue) : Bool :=
  vals.any (fun v => pyStrOf v == some s)

/-- The collection run (source lines 266-417) without the file/IO tail: the
expiry validation, chain retrieval, symbol extraction, three batched
fetches, the per-symbol loop, the contract filter, and the result
assembly.  `toMsg` renders an underlying API failure the way `str(exc)`
would. -/
def runMain (ctx : Ctx ε) (toMsg : ε → String) (args : Args) :
    Except (RunError ε) RunResult :=
  let symbol := normalize_symbol args.symbol
  match callCtx ctx expiryNames [.str symbol] with
  | .error e => .error (.uncaught e)
  | .ok (expiry_method, expiryRaw) =>
    match expiryRaw with
    | .list expiryItems =>
      let datesNorm := expiryItems.map to_python
      if pyStrMem args.expiry datesNorm then
        match callCtx ctx chainNames [.str symbol, .datetime args.expiry] with
        | .error e => .error (.uncaught e)
        | .ok (chain_method, chainRaw) =>
          match to_python chainRaw with
          | .list chainRows =>
            let option_symbols := extract_option_symbols chainRows
            if option_symbols.isEmpty then
              .error (.system_exit (emptyChainExitMsg symbol args.expiry))
            else
              match fetch_batched ctx option_symbols args.batch_size optionQuoteNames with
              | .error e => .error (.uncaught e)
              | .ok option_quote =>
                match fetch_batched ctx option_symbols args.batch_size staticInfoNames with
                | .error e => .error (.uncaught e)
                | .ok static_info =>
                  match fetch_batched ctx option_symbols args.batch_size quoteNames with
                  | .error e => .error (.uncaught e)
                  | .ok quote =>
                    let st := perSymbolLoop ctx toMsg option_symbols initLoopState
                    match filter_chain_rows chainRows args.strike args.right with
                    | .error _ => .error (.uncaught .valueError)
                    | .ok selected_contracts =>
                      match mapStrs datesNorm with
                      | Option.none => .error (.uncaught .typeError)
                      | some dateStrs =>
                        .ok
                          ⟨[("expiry_dates", expiry_method), ("option_chain", chain_method)]
                             ++ methodEntry "option_quote" option_quote.method
                             ++ methodEntry "static_info" static_info.method
                             ++ methodEntry "quote" quote.method
                             ++ [("depth", st.depth_method.getD ""),
                                 ("trades", st.trade_method.getD ""),
                                 ("brokers", st.broker_method.getD "")],
                           symbol,
                           sortedDedup dateStrs,
                           .list chainRows,
                           option_symbols,
                           selected_contracts,
                           option_quote,
                           static_info,
                           quote,
                           ⟨st.depth_method, st.depth_rows.length, .list st.depth_rows⟩,
                           ⟨st.trade_method, st.trade_rows.length, .list st.trade_rows⟩,
                           ⟨st.broker_method, st.broker_rows.length, .list st.broker_rows⟩,
                           st.errors⟩
          | _ => .error (.uncaught .typeError)
      else
        match mapStrs datesNorm with
        | Option.none => .error (.uncaught .typeError)
        | some dateStrs =>
          .error (.system_exit
            (expiryExitMsg args.expiry symbol
              (String.intercalate ", " (sortedDedup dateStrs))))
    | _ => .error (.uncaught .typeError)

/-- A concrete client for the C1 witness: `A` absent, `B` succeeding,
`C` raising. -/
def ctxC1 : String → Option (Except String Nat) :=
  fun n =>
    if n = "A" then Option.none
    else if n = "B" then some (.ok 7)
    else if n = "C" then some (.error "boom") else Option.none

/-- A concrete echoing batch client for the C2 witness: the method `m`
returns the symbol list it is given. -/
def ctxC2 : Ctx String :=
  fun n =>
    if n = "m" then
      some (fun args =>
        match args with
        | [.list xs] => .ok (.list xs)
        | _ => .ok (.list []))
    else Option.none

/-- The two-row example chain of the specification: strikes 100 and 105
with call / put symbols C1 / P1 and C2 / P2. -/
def chainC3 : List PyValue :=
  [.dict [("strike_price", .int 100), ("call_symbol", .str "C1"),
          ("put_symbol", .str "P1")],
   .dict [("strike_price", .int 105), ("call_symbol", .str "C2"),
          ("put_symbol", .str "P2")]]


/-- A concrete per-symbol client for the C5 witness: `depth` raises on the
symbol `B` and succeeds elsewhere, `trades` and `brokers` always succeed,
and no fallback names are present. -/
def ctxC5 : Ctx String :=
  fun n =>
    if n = "depth" then
      some (fun args =>
        match args with
        | [.str s] => if s = "B" then .error "boom" else .ok .pynone
        | _ => .ok .pynone)
    else if n = "trades" then some (fun _ => .ok .pynone)
    else if n = "brokers" then some (fun _ => .ok .pynone)
    else Option.none

/-- A concrete client for the C8 witness: only the expiry-date listing is
present, returning the two dates of the specification example. -/
def ctxC8 : Ctx String :=
  fun n =>
    if n = "option_chain_expiry_date_list" then
      some (fun _ => .ok (.list [.datetime "2025-01-24", .datetime "2025-01-10"]))
    else Option.none

/-! ## Theorems -/

/-! ### C1: the compatible method invoker -/

/-- When every remaining candidate is absent, the loop terminates by
re-raising the remembered failure, or with the distinct `AttributeError`
when nothing was remembered. -/
theorem try_call_go_absent {ε α : Type} (ctx : String → Option (Except ε α))
    (allNames : List String) :
    ∀ (l : List String) (last : Option ε), (∀ n ∈ l, ctx n = Option.none) →
      try_call_go ctx allNames l last =
        (match last with
         | some e => .error (.raised e)
         | Option.none => .error (.attributeError allNames)) := by
  intro l
  induction l with
  | nil => intro last _; cases last <;> rfl
  | cons n rest ih =>
    intro last h
    have hn : ctx n = Option.none := h n (by simp)
    rw [try_call_go, hn]
    exact ih last (fun m hm => h m (by simp [hm]))

/-- Walking a prefix of absent-or-raising candidates reaches the first
present-and-succeeding candidate, whatever failure is remembered. -/
theorem try_call_go_prefix_ok {ε α : Type} (ctx : String → Option (Except ε α))
    (allNames : List String) (n : String) (post : List String) (r : α)
    (hn : ctx n = some (.ok r)) :
    ∀ (pre : List String) (last : Option ε),
      (∀ m ∈ pre, ctx m = Option.none ∨ ∃ e, ctx m = some (.error e)) →
      try_call_go ctx allNames (pre ++ n :: post) last = .ok (n, r) := by
  intro pre
  induction pre with
  | nil => intro last _; rw [List.nil_append, try_call_go, hn]
  | cons p ps ih =>
    intro last h
    rcases h p (by simp) with hp | ⟨e, hp⟩
    · rw [List.cons_append, try_call_go, hp]
      exact ih last (fun m hm => h m (by simp [hm]))
    · rw [List.cons_append, try_call_go, hp]
      exact ih (some e) (fun m hm => h m (by simp [hm]))

/-- Walking a prefix of absent-or-raising candidates reaches a raising
candidate; when everything after it is absent, its failure is the one
re-raised. -/
theorem try_call_go_prefix_raise {ε α : Type} (ctx : String → Option (Except ε α))
    (allNames : List String) (n : String) (post : List String) (e : ε)
    (hn : ctx n = some (.error e)) (hpost : ∀ m ∈ post, ctx m = Option.none) :
    ∀ (pre : List String) (last : Option ε),
      (∀ m ∈ pre, ctx m = Option.none ∨ ∃ e2, ctx m = some (.error e2)) →
      try_call_go ctx allNames (pre ++ n :: post) last = .error (.raised e) := by
  intro pre
  induction pre with
  | nil =>
    intro last _
    rw [List.nil_append, try_call_go, hn]
    exact try_call_go_absent ctx allNames post (some e) hpost
  | cons p ps ih =>
    intro last h
    rcases h p (by simp) with hp | ⟨e2, hp⟩
    · rw [List.cons_append, try_call_go, hp]
      exact ih last (fun m hm => h m (by simp [hm]))
    · rw [List.cons_append, try_call_go, hp]
      exact ih (some e2) (fun m hm => h m (by simp [hm]))

/-- Claim C1: `try_call` tries the candidate names in order and returns,
on the first candidate that is present and whose invocation does not
raise, that name paired with its result; if every candidate is absent or
raises and at least one raised, it re-raises the last raised failure; and
if no candidate was present at all, it fails with the distinct
`AttributeError` naming the candidates, not an underlying API failure. -/
theorem try_call_fallback {ε α : Type} (ctx : String → Option (Except ε α))
    (names : List String) :
    ((∀ n ∈ names, ctx n = Option.none) →
        try_call ctx names = .error (.attributeError names))
    ∧ (∀ (pre : List String) (n : String) (post : List String) (r : α),
        names = pre ++ n :: post →
        (∀ m ∈ pre, ctx m = Option.none ∨ ∃ e, ctx m = some (.error e)) →
        ctx n = some (.ok r) →
        try_call ctx names = .ok (n, r))
    ∧ (∀ (pre : List String) (n : String) (post : List String) (e : ε),
        names = pre ++ n :: post →
        (∀ m ∈ pre, ctx m = Option.none ∨ ∃ e2, ctx m = some (.error e2)) →
        ctx n = some (.error e) →
        (∀ m ∈ post, ctx m = Option.none) →
        try_call ctx names = .error (.raised e)) := by
  refine ⟨?_, ?_, ?_⟩
  · intro h
    exact try_call_go_absent ctx names names Option.none h
  · intro pre n post r hnames hpre hn
    subst hnames
    exact try_call_go_prefix_ok ctx (pre ++ n :: post) n post r hn pre Option.none hpre
  · intro pre n post e hnames hpre hn hpost
    subst hnames
    exact try_call_go_prefix_raise ctx (pre ++ n :: post) n post e hn hpost pre
      Option.none hpre

/-- Witness for C1 at a concrete client: with candidates `[A, B]` where `A`
is absent and `B` succeeds, the used name is `B`; with `[A, C]` where `A`
is absent and `C` raises, the raised failure is that of `C`; with `[A]`
alone the distinct no-matching-operation error is raised. -/
theorem try_call_fallback_witness :
    try_call ctxC1 ["A", "B"] = .ok ("B", 7)
    ∧ try_call ctxC1 ["A", "C"] = .error (.raised "boom")
    ∧ try_call ctxC1 ["A"] = .error (.attributeError ["A"]) := by
  refine ⟨?_, ?_, ?_⟩
  · exact (try_call_fallback ctxC1 ["A", "B"]).2.1 ["A"] "B" [] 7 rfl
      (by intro m hm; simp at hm; subst hm; left; rfl) rfl
  · exact (try_call_fallback ctxC1 ["A", "C"]).2.2 ["A"] "C" [] "boom" rfl
      (by intro m hm; simp at hm; subst hm; left; rfl) rfl
      (by intro m hm; simp at hm)
  · exact (try_call_fallback ctxC1 ["A"]).1
      (by intro m hm; simp at hm; subst hm; rfl)

/-! ### C2: the batched fetcher -/

/-- With a positive size, there are no chunks exactly for no items. -/
theorem chunked_eq_nil_iff (items : List String) (size : Nat) (hs : 0 < size) :
    chunked items size = [] ↔ items = [] := by
  constructor
  · intro h
    by_contra hne
    rw [chunked] at h
    rw [dif_neg (by simp [hne]; omega)] at h
    exact absurd h (by simp)
  · intro h
    rw [chunked, dif_pos (by simp [h])]

/-- The number of chunks is the ceiling of the item count over the size. -/
theorem chunked_length (items : List String) (size : Nat) (hs : 0 < size) :
    (chunked items size).length = (items.length + size - 1) / size := by
  induction items, size using chunked.induct with
  | case1 items size h =>
    rcases h with h | h
    · omega
    · subst h
      rw [chunked, dif_pos (by simp)]
      simp only [List.length_nil, Nat.zero_add]
      rw [Nat.div_eq_of_lt (by omega)]
  | case2 items size h ih =>
    simp only [not_or] at h
    have h1 : 0 < size := Nat.pos_of_ne_zero h.1
    have h2 : 0 < items.length := List.length_pos.mpr h.2
    rw [chunked, dif_neg (by simp [h.1, h.2])]
    simp only [List.length_cons, ih h1, List.length_drop]
    have hr : items.length + size - 1 = (items.length - 1) + size := by omega
    rw [hr, Nat.add_div_right _ h1]
    by_cases hc : size ≤ items.length
    · have : items.length - size + size - 1 = items.length - 1 := by omega
      rw [this]
    · have hz : items.length - size = 0 := by omega
      rw [hz]
      rw [Nat.div_eq_of_lt (by omega), Nat.div_eq_of_lt (by omega)]

/-- The chunks concatenate back to the items, in order. -/
theorem chunked_flatten (items : List String) (size : Nat) (hs : 0 < size) :
    (chunked items size).flatten = items := by
  induction items, size using chunked.induct with
  | case1 items size h =>
    rcases h with h | h
    · omega
    · subst h
      rw [chunked, dif_pos (by simp)]
      rfl
  | case2 items size h ih =>
    rw [chunked, dif_neg h]
    simp only [List.flatten_cons, ih hs]
    exact List.take_append_drop size items

/-- Every chunk is non-empty of length at most the size. -/
theorem chunked_mem_length (items : List String) (size : Nat) (hs : 0 < size) :
    ∀ c ∈ chunked items size, c.length ≤ size ∧ c ≠ [] := by
  induction items, size using chunked.induct with
  | case1 items size h =>
    rcases h with h | h
    · omega
    · subst h
      rw [chunked, dif_pos (by simp)]
      simp
  | case2 items size h ih =>
    simp only [not_or] at h
    rw [chunked, dif_neg (by simp [h.1, h.2])]
    intro c hc
    rcases List.mem_cons.mp hc with rfl | hmem
    · refine ⟨by simp [List.length_take], ?_⟩
      simp only [ne_eq, List.take_eq_nil_iff, not_or]
      exact ⟨by omega, h.2⟩
    · exact ih hs c hmem

/-- Every chunk except possibly the last has length exactly the size. -/
theorem chunked_dropLast_length (items : List String) (size : Nat) (hs : 0 < size) :
    ∀ c ∈ (chunked items size).dropLast, c.length = size := by
  induction items, size using chunked.induct with
  | case1 items size h =>
    rcases h with h | h
    · omega
    · subst h
      rw [chunked, dif_pos (by simp)]
      simp
  | case2 items size h ih =>
    simp only [not_or] at h
    rw [chunked, dif_neg (by simp [h.1, h.2])]
    by_cases hd : chunked (items.drop size) size = []
    · rw [hd]
      simp
    · rw [List.dropLast_cons_of_ne_nil hd]
      intro c hc
      rcases List.mem_cons.mp hc with rfl | hmem
      · have hdrop : items.drop size ≠ [] :=
          fun hnil => hd ((chunked_eq_nil_iff _ _ hs).mpr hnil)
        have hlt : size < items.length := by
          by_contra hle
          exact hdrop (List.drop_eq_nil_of_le (by omega))
        simp [List.length_take]
        omega
      · exact ih hs c hmem

/-- Truthiness of a list value is non-emptiness. -/
theorem truthy_list (xs : List PyValue) : truthy (.list xs) = !xs.isEmpty := rfl

/-- The batch loop under per-chunk success: rows accumulate in chunk order
and the recorded method is the first recorded one. -/
theorem fetch_batched_go_success {ε : Type}
    (call : List String → Except (PyErr ε) (String × PyValue))
    (m : List String → String) (r : List String → List PyValue) :
    ∀ (cs : List (List String)),
      (∀ b ∈ cs, call b = .ok (m b, .list (r b))) →
      (∀ b ∈ cs, m b ≠ "") →
      ∀ (used : Option String) (acc : List PyValue), used ≠ some "" →
        fetch_batched_go call cs used acc =
          .ok ⟨(match used with
                | some u => some u
                | Option.none => cs.head?.map m),
               (acc ++ (cs.map r).flatten).length,
               to_python (.list (acc ++ (cs.map r).flatten))⟩ := by
  intro cs
  induction cs with
  | nil =>
    intro _ _ used acc _
    cases used <;> simp [fetch_batched_go]
  | cons b bs ih =>
    intro hcall hm used acc hused
    have hb : call b = .ok (m b, .list (r b)) := hcall b (by simp)
    have hmb : m b ≠ "" := hm b (by simp)
    have hcall2 : ∀ c ∈ bs, call c = .ok (m c, .list (r c)) :=
      fun c hc => hcall c (by simp [hc])
    have hm2 : ∀ c ∈ bs, m c ≠ "" := fun c hc => hm c (by simp [hc])
    have horder : ∀ u2 : Option String, u2 ≠ some "" →
        (match u2 with
          | some u => some u
          | Option.none => (b :: bs).head?.map m) =
        (match pyOrStr u2 (m b) with
          | some u => some u
          | Option.none => bs.head?.map m) := by
      intro u2 hu2
      cases u2 with
      | none => simp [pyOrStr]
      | some u =>
        have hu : u ≠ "" := fun h => hu2 (by rw [h])
        simp [pyOrStr, hu]
    have hpyor : pyOrStr used (m b) ≠ some "" := by
      cases used with
      | none =>
        simp only [pyOrStr, ne_eq, Option.some.injEq]
        exact hmb
      | some u =>
        simp only [pyOrStr]
        by_cases hu : u = ""
        · rw [if_pos hu]
          simp only [ne_eq, Option.some.injEq]
          exact hmb
        · rw [if_neg hu]
          simp only [ne_eq, Option.some.injEq]
          exact hu
    by_cases hrb : r b = []
    · simp only [fetch_batched_go, hb]
      rw [if_neg (by simp [truthy, hrb])]
      rw [ih hcall2 hm2 (pyOrStr used (m b)) acc hpyor]
      rw [horder used hused]
      simp [hrb]
    · have htr : truthy (PyValue.list (r b)) = true := by
        simp only [truthy_list]
        simp [List.isEmpty_iff, hrb]
      simp only [fetch_batched_go, hb]
      rw [if_pos htr]
      simp only [pyIterate]
      rw [ih hcall2 hm2 (pyOrStr used (m b)) (acc ++ r b) hpyor]
      rw [horder used hused]
      simp [List.append_assoc]

/-- Claim C2: with a positive batch size, `fetch_batched` partitions the
ids into exactly `ceil(N / B)` contiguous in-order chunks of size at most
`B` (all but possibly the last of size exactly `B`), performs one invoker
call per chunk (formalized by the per-chunk result functions below),
concatenates the returned rows in chunk order, reports their total count,
records the method of the first chunk call, and for zero ids performs zero
invocations, yielding `count = 0` and `method = null`. -/
theorem fetch_batched_spec {ε : Type} (ctx : Ctx ε) (ids : List String) (B : Nat)
    (names : List String) (hB : 0 < B) :
    (chunked ids B).length = (ids.length + B - 1) / B
    ∧ (chunked ids B).flatten = ids
    ∧ (∀ c ∈ chunked ids B, c.length ≤ B ∧ c ≠ [])
    ∧ (∀ c ∈ (chunked ids B).dropLast, c.length = B)
    ∧ (∀ (m : List String → String) (r : List String → List PyValue),
        (∀ b ∈ chunked ids B,
          callCtx ctx names [.list (b.map .str)] = .ok (m b, .list (r b))) →
        (∀ b ∈ chunked ids B, m b ≠ "") →
        fetch_batched ctx ids B names =
          .ok ⟨(chunked ids B).head?.map m,
               ((chunked ids B).map r).flatten.length,
               to_python (.list ((chunked ids B).map r).flatten)⟩)
    ∧ fetch_batched ctx [] B names = .ok ⟨Option.none, 0, .list []⟩ := by
  refine ⟨chunked_length ids B hB, chunked_flatten ids B hB, chunked_mem_length ids B hB,
    chunked_dropLast_length ids B hB, ?_, ?_⟩
  · intro m r hcall hm
    unfold fetch_batched
    rw [fetch_batched_go_success _ m r (chunked ids B) hcall hm Option.none [] (by simp)]
    simp
  · unfold fetch_batched
    rw [(chunked_eq_nil_iff [] B hB).mpr rfl]
    simp [fetch_batched_go, to_python, to_python_list]

/-- Witness for C2 at a concrete client: three ids with batch size two are
fetched in two chunk calls, the rows concatenate in order with count
three, and the recorded method is the one used by the first chunk. -/
theorem fetch_batched_spec_witness :
    fetch_batched ctxC2 ["a", "b", "c"] 2 ["m"]
      = .ok ⟨some "m", 3, .list [.str "a", .str "b", .str "c"]⟩
    ∧ fetch_batched ctxC2 [] 2 ["m"] = .ok ⟨Option.none, 0, .list []⟩ := by
  have hch : chunked ["a", "b", "c"] 2 = [["a", "b"], ["c"]] := by
    rw [chunked, dif_neg (by simp)]
    rw [chunked, dif_neg (by simp)]
    rw [chunked, dif_pos (by simp)]
    rfl
  constructor
  · have h := (fetch_batched_spec ctxC2 ["a", "b", "c"] 2 ["m"] (by norm_num)).2.2.2.2.1
      (fun _ => "m") (fun b => b.map .str)
      (by
        intro b hb
        rw [hch] at hb
        rcases List.mem_cons.mp hb with rfl | hb2
        · rfl
        · rcases List.mem_cons.mp hb2 with rfl | hb3
          · rfl
          · simp at hb3)
      (by intro b _; simp)
    rw [h, hch]
    simp [to_python, to_python_list]
  · exact (fetch_batched_spec ctxC2 [] 2 ["m"] (by norm_num)).2.2.2.2.2

/-! ### C4 and C10: the enum branch of the normalizer -/

/-- Elementwise characterization of the list branch of the normalizer. -/
theorem to_python_list_eq_map (xs : List PyValue) :
    to_python_list xs = xs.map to_python := by
  induction xs with
  | nil => simp [to_python_list]
  | cons v vs ih => simp [to_python_list, ih]

/-- Valuewise characterization of the mapping branch of the normalizer. -/
theorem to_python_pairs_eq_map (kvs : List (String × PyValue)) :
    to_python_pairs kvs = kvs.map (fun p => (p.1, to_python p.2)) := by
  induction kvs with
  | nil => simp [to_python_pairs]
  | cons p rest ih =>
    rcases p with ⟨k, v⟩
    simp [to_python_pairs, ih]

/-- Characterization of the attribute branch of the normalizer: keep the
public attributes, normalize their values. -/
theorem to_python_attrs_eq (fs : List (String × PyValue)) :
    to_python_attrs fs
      = (fs.filter (fun p => !startsUnderscore p.1)).map (fun p => (p.1, to_python p.2)) := by
  induction fs with
  | nil => simp [to_python_attrs]
  | cons p rest ih =>
    rcases p with ⟨k, v⟩
    by_cases hk : startsUnderscore k
    · simp [to_python_attrs, hk, ih]
    · simp [to_python_attrs, hk, ih]

/-- Claim C4 counterexample: for an enumeration member whose underlying
value is not primitive (here a `Decimal`), the normalizer returns the raw
underlying value, which is not a mapping of public attributes (nor
normalized at all) — the claimed fall-through to the generic-object rule
does not happen. -/
theorem to_python_enum_counterexample :
    to_python (.enum (.decimal ⟨false, [1], 0⟩)) = .decimal ⟨false, [1], 0⟩
    ∧ ∀ kvs : List (String × PyValue),
        to_python (.enum (.decimal ⟨false, [1], 0⟩)) ≠ .dict kvs := by
  constructor
  · simp [to_python]
  · intro kvs h
    rw [show to_python (.enum (.decimal ⟨false, [1], 0⟩)) = .decimal ⟨false, [1], 0⟩
      from by simp [to_python]] at h
    exact PyValue.noConfusion h

/-- Claim C4 (amended): for every enumeration-like value, the normalizer
returns the underlying `value.value` unchanged — the primitive itself when
the underlying value is primitive, and the raw un-normalized underlying
value (not a mapping of public attributes) otherwise. -/
theorem to_python_enum_underlying (v : PyValue) : to_python (.enum v) = v := by
  simp [to_python]

/-- Claim C10 counterexample: the normalizer is not idempotent.  For an
enum member wrapping a `Decimal`, the first pass returns the raw
`Decimal` and the second pass turns it into a string. -/
theorem to_python_not_idempotent :
    to_python (to_python (.enum (.decimal ⟨false, [1], -1⟩)))
      ≠ to_python (.enum (.decimal ⟨false, [1], -1⟩)) := by
  intro h
  rw [show to_python (.enum (.decimal ⟨false, [1], -1⟩)) = .decimal ⟨false, [1], -1⟩
    from by simp [to_python]] at h
  rw [show to_python (.decimal ⟨false, [1], -1⟩) = .str (pyDecimalStr ⟨false, [1], -1⟩)
    from by simp [to_python]] at h
  exact PyValue.noConfusion h

/-- Strong induction over the size of a Python value (the nested lists
prevent direct structural induction). -/
theorem pyvalue_strong_ind (P : PyValue → Prop)
    (h : ∀ v, (∀ w, sizeOf w < sizeOf v → P w) → P v) : ∀ v, P v := by
  have aux : ∀ (k : Nat) (u : PyValue), sizeOf u < k → P u := by
    intro k
    induction k with
    | zero => intro u hu; exact absurd hu (Nat.not_lt_zero _)
    | succ n ih => intro u _; exact h u (fun w hw => ih w (by omega))
  intro v
  exact aux (sizeOf v + 1) v (by omega)

/-- The value under a key of a pair list is smaller than the list. -/
theorem sizeOf_snd_lt_of_mem {kvs : List (String × PyValue)} {p : String × PyValue}
    (hp : p ∈ kvs) : sizeOf p.2 < sizeOf kvs := by
  have h1 := List.sizeOf_lt_of_mem hp
  rcases p with ⟨k, v⟩
  simp at h1 ⊢
  omega

/-- Membership form of `NormalizedListB`. -/
theorem normalizedListB_iff (xs : List PyValue) :
    NormalizedListB xs = true ↔ ∀ v ∈ xs, NormalizedB v = true := by
  induction xs with
  | nil => simp [NormalizedListB]
  | cons v vs ih => simp [NormalizedListB, ih]

/-- Membership form of `NormalizedPairsB`. -/
theorem normalizedPairsB_iff (kvs : List (String × PyValue)) :
    NormalizedPairsB kvs = true ↔ ∀ p ∈ kvs, NormalizedB p.2 = true := by
  induction kvs with
  | nil => simp [NormalizedPairsB]
  | cons p rest ih =>
    rcases p with ⟨k, v⟩
    simp [NormalizedPairsB, ih]

/-- Membership form of `EnumOkListB`. -/
theorem enumOkListB_iff (xs : List PyValue) :
    EnumOkListB xs = true ↔ ∀ v ∈ xs, EnumOkB v = true := by
  induction xs with
  | nil => simp [EnumOkListB]
  | cons v vs ih => simp [EnumOkListB, ih]

/-- Membership form of `EnumOkPairsB`. -/
theorem enumOkPairsB_iff (kvs : List (String × PyValue)) :
    EnumOkPairsB kvs = true ↔ ∀ p ∈ kvs, EnumOkB p.2 = true := by
  induction kvs with
  | nil => simp [EnumOkPairsB]
  | cons p rest ih =>
    rcases p with ⟨k, v⟩
    simp [EnumOkPairsB, ih]

/-- A value already in normal form is a fixed point of the normalizer. -/
theorem to_python_of_normalized :
    ∀ v : PyValue, NormalizedB v = true → to_python v = v := by
  refine pyvalue_strong_ind _ ?_
  intro v ih hv
  cases v with
  | pynone => simp [to_python]
  | bool b => simp [to_python]
  | int n => simp [to_python]
  | float q => simp [to_python]
  | str s => simp [to_python]
  | decimal d => simp [NormalizedB] at hv
  | datetime iso => simp [NormalizedB] at hv
  | enum u => simp [NormalizedB] at hv
  | dataclass fields => simp [NormalizedB] at hv
  | obj attrs => simp [NormalizedB] at hv
  | list xs =>
    simp only [NormalizedB] at hv
    simp only [to_python, to_python_list_eq_map, PyValue.list.injEq]
    have hfix : ∀ u ∈ xs, to_python u = u := by
      intro u hu
      have hlt : sizeOf u < sizeOf (PyValue.list xs) := by
        have := List.sizeOf_lt_of_mem hu
        simp
        omega
      exact ih u hlt ((normalizedListB_iff xs).mp hv u hu)
    calc List.map to_python xs = List.map id xs :=
          List.map_congr_left (fun a ha => hfix a ha)
      _ = xs := List.map_id xs
  | dict kvs =>
    simp only [NormalizedB] at hv
    simp only [to_python, to_python_pairs_eq_map, PyValue.dict.injEq]
    have hfix : ∀ p ∈ kvs, (p.1, to_python p.2) = p := by
      intro p hp
      have hlt : sizeOf p.2 < sizeOf (PyValue.dict kvs) := by
        have := sizeOf_snd_lt_of_mem hp
        simp
        omega
      have h2 := ih p.2 hlt ((normalizedPairsB_iff kvs).mp hv p hp)
      rw [h2]
    calc List.map (fun p => (p.1, to_python p.2)) kvs = List.map id kvs :=
          List.map_congr_left (fun a ha => hfix a ha)
      _ = kvs := List.map_id kvs

/-- When every enum in the value already carries a normalized underlying
value, the normalizer produces a value in normal form. -/
theorem normalized_to_python :
    ∀ v : PyValue, EnumOkB v = true → NormalizedB (to_python v) = true := by
  refine pyvalue_strong_ind _ ?_
  intro v ih hv
  cases v with
  | pynone => simp [to_python, NormalizedB]
  | bool b => simp [to_python, NormalizedB]
  | int n => simp [to_python, NormalizedB]
  | float q => simp [to_python, NormalizedB]
  | str s => simp [to_python, NormalizedB]
  | decimal d => simp [to_python, NormalizedB]
  | datetime iso => simp [to_python, NormalizedB]
  | enum u =>
    simp only [EnumOkB] at hv
    simp only [to_python]
    exact hv
  | list xs =>
    simp only [EnumOkB] at hv
    simp only [to_python, to_python_list_eq_map, NormalizedB]
    rw [normalizedListB_iff]
    intro w hw
    rcases List.mem_map.mp hw with ⟨u, hu, rfl⟩
    have hlt : sizeOf u < sizeOf (PyValue.list xs) := by
      have := List.sizeOf_lt_of_mem hu
      simp
      omega
    exact ih u hlt ((enumOkListB_iff xs).mp hv u hu)
  | dict kvs =>
    simp only [EnumOkB] at hv
    simp only [to_python, to_python_pairs_eq_map, NormalizedB]
    rw [normalizedPairsB_iff]
    intro q hq
    rcases List.mem_map.mp hq with ⟨p, hp, rfl⟩
    have hlt : sizeOf p.2 < sizeOf (PyValue.dict kvs) := by
      have := sizeOf_snd_lt_of_mem hp
      simp
      omega
    exact ih p.2 hlt ((enumOkPairsB_iff kvs).mp hv p hp)
  | dataclass fields =>
    simp only [EnumOkB] at hv
    simp only [to_python, to_python_pairs_eq_map, NormalizedB]
    rw [normalizedPairsB_iff]
    intro q hq
    rcases List.mem_map.mp hq with ⟨p, hp, rfl⟩
    have hlt : sizeOf p.2 < sizeOf (PyValue.dataclass fields) := by
      have := sizeOf_snd_lt_of_mem hp
      simp
      omega
    exact ih p.2 hlt ((enumOkPairsB_iff fields).mp hv p hp)
  | obj attrs =>
    simp only [EnumOkB] at hv
    simp only [to_python, to_python_attrs_eq, NormalizedB]
    rw [normalizedPairsB_iff]
    intro q hq
    rcases List.mem_map.mp hq with ⟨p, hp, rfl⟩
    have hp2 : p ∈ attrs := List.mem_of_mem_filter hp
    have hlt : sizeOf p.2 < sizeOf (PyValue.obj attrs) := by
      have := sizeOf_snd_lt_of_mem hp2
      simp
      omega
    exact ih p.2 hlt ((enumOkPairsB_iff attrs).mp hv p hp2)

/-- Claim C10 (amended): the normalizer is idempotent on every value whose
enumeration members all carry an already-normalized underlying value — in
particular on all enum-free values and on all values whose enums wrap
primitives.  (Full idempotence fails: see the counterexample.) -/
theorem to_python_idempotent_of_enumOk (v : PyValue) (h : EnumOkB v = true) :
    to_python (to_python v) = to_python v :=
  to_python_of_normalized _ (normalized_to_python v h)

/-- Witness for the amended C10 at a concrete value containing an enum
wrapping a primitive, a date and a nested mapping. -/
theorem to_python_idempotent_witness :
    EnumOkB (.list [.enum (.int 2), .dict [("a", .datetime "2025-01-10")]]) = true
    ∧ to_python (to_python (.list [.enum (.int 2), .dict [("a", .datetime "2025-01-10")]]))
        = to_python (.list [.enum (.int 2), .dict [("a", .datetime "2025-01-10")]]) := by
  have h : EnumOkB (.list [.enum (.int 2), .dict [("a", .datetime "2025-01-10")]]) = true := by
    simp [EnumOkB, EnumOkListB, EnumOkPairsB, NormalizedB]
  exact ⟨h, to_python_idempotent_of_enumOk _ h⟩

/-! ### C6: symbol extraction -/

/-- Membership in one symbol-field collection: exactly the non-empty
string symbols stored under the field in some dict row.  (Strings are the
only symbol values the claim speaks about and the only ones the Python
`sorted` accepts uniformly; the model extracts them as such.) -/
theorem mem_chainSymbolValues_str (option_chain : List PyValue) (field : String)
    (s : String) :
    PyValue.str s ∈ chainSymbolValues option_chain field ↔
      s ≠ "" ∧ ∃ kvs, PyValue.dict kvs ∈ option_chain
        ∧ pyGet kvs field = some (.str s) := by
  unfold chainSymbolValues
  rw [List.mem_filterMap]
  constructor
  · rintro ⟨row, hrow, hg⟩
    cases row with
    | dict kvs =>
      replace hg : (match pyGet kvs field with
          | some v => if truthy v = true then some v else Option.none
          | Option.none => Option.none) = some (PyValue.str s) := hg
      cases hget : pyGet kvs field with
      | none =>
        rw [hget] at hg
        exact Option.noConfusion hg
      | some v =>
        rw [hget] at hg
        replace hg : (if truthy v = true then some v else Option.none)
            = some (PyValue.str s) := hg
        by_cases htr : truthy v = true
        · rw [if_pos htr] at hg
          injection hg with hg2
          subst hg2
          refine ⟨by simpa [truthy] using htr, kvs, hrow, hget⟩
        · rw [if_neg htr] at hg
          exact Option.noConfusion hg
    | pynone => exact Option.noConfusion hg
    | bool b => exact Option.noConfusion hg
    | int n => exact Option.noConfusion hg
    | float q => exact Option.noConfusion hg
    | str t => exact Option.noConfusion hg
    | decimal d => exact Option.noConfusion hg
    | datetime iso => exact Option.noConfusion hg
    | enum u => exact Option.noConfusion hg
    | dataclass fs => exact Option.noConfusion hg
    | list xs => exact Option.noConfusion hg
    | obj fs => exact Option.noConfusion hg
  · rintro ⟨hs, kvs, hrow, hget⟩
    refine ⟨.dict kvs, hrow, ?_⟩
    show (match pyGet kvs field with
        | some v => if truthy v = true then some v else Option.none
        | Option.none => Option.none) = some (PyValue.str s)
    rw [hget]
    show (if truthy (PyValue.str s) = true then some (PyValue.str s) else Option.none)
      = some (PyValue.str s)
    rw [if_pos (by simp [truthy, hs])]

/-- A string belongs to the extracted symbol list exactly when it is a
non-empty symbol under one of the two symbol fields of some chain row. -/
theorem mem_extract_option_symbols (option_chain : List PyValue) (s : String) :
    s ∈ extract_option_symbols option_chain ↔
      s ≠ "" ∧ ∃ kvs, PyValue.dict kvs ∈ option_chain
        ∧ (pyGet kvs "call_symbol" = some (.str s)
           ∨ pyGet kvs "put_symbol" = some (.str s)) := by
  unfold extract_option_symbols
  rw [(List.perm_insertionSort strLe _).mem_iff, List.mem_dedup, List.mem_filterMap]
  constructor
  · rintro ⟨v, hv, hvs⟩
    cases v with
    | str t =>
      injection hvs with h2
      subst h2
      rcases List.mem_append.mp hv with hmem | hmem
      · rcases (mem_chainSymbolValues_str _ _ _).mp hmem with ⟨hs, kvs, hk, hg⟩
        exact ⟨hs, kvs, hk, Or.inl hg⟩
      · rcases (mem_chainSymbolValues_str _ _ _).mp hmem with ⟨hs, kvs, hk, hg⟩
        exact ⟨hs, kvs, hk, Or.inr hg⟩
    | pynone => exact Option.noConfusion hvs
    | bool b => exact Option.noConfusion hvs
    | int n => exact Option.noConfusion hvs
    | float q => exact Option.noConfusion hvs
    | decimal d => exact Option.noConfusion hvs
    | datetime iso => exact Option.noConfusion hvs
    | enum u => exact Option.noConfusion hvs
    | dataclass fs => exact Option.noConfusion hvs
    | dict kvs => exact Option.noConfusion hvs
    | list xs => exact Option.noConfusion hvs
    | obj fs => exact Option.noConfusion hvs
  · rintro ⟨hs, kvs, hk, hg | hg⟩
    · exact ⟨.str s, List.mem_append.mpr
        (Or.inl ((mem_chainSymbolValues_str _ _ _).mpr ⟨hs, kvs, hk, hg⟩)), rfl⟩
    · exact ⟨.str s, List.mem_append.mpr
        (Or.inr ((mem_chainSymbolValues_str _ _ _).mpr ⟨hs, kvs, hk, hg⟩)), rfl⟩

/-- Claim C6: `extract_option_symbols` returns the deduplicated set of all
non-empty call-symbol and put-symbol values across the chain rows, with no
empty string, in ascending lexicographic (code-point) order; being a pure
function of its input, its output is deterministic. -/
theorem extract_option_symbols_spec (option_chain : List PyValue) :
    List.Sorted strLe (extract_option_symbols option_chain)
    ∧ (extract_option_symbols option_chain).Nodup
    ∧ "" ∉ extract_option_symbols option_chain
    ∧ ∀ s : String, s ∈ extract_option_symbols option_chain ↔
        s ≠ "" ∧ ∃ kvs, PyValue.dict kvs ∈ option_chain
          ∧ (pyGet kvs "call_symbol" = some (.str s)
             ∨ pyGet kvs "put_symbol" = some (.str s)) := by
  refine ⟨List.sorted_insertionSort strLe _, ?_, ?_, mem_extract_option_symbols option_chain⟩
  · exact (List.perm_insertionSort strLe _).nodup_iff.mpr (List.nodup_dedup _)
  · intro hmem
    rcases (mem_extract_option_symbols option_chain "").mp hmem with ⟨hne, _⟩
    exact hne rfl

/-! ### C3 and C9: the chain filter -/

/-- When the strike test succeeds, its verdict is the negation of the
spec-level keep predicate. -/
theorem strikeSkip_ok_iff (strike : Option ℚ) (rs : PyValue) (b : Bool)
    (h : strikeSkip strike rs = .ok b) :
    specStrikeKeep strike rs = !b := by
  cases strike with
  | none =>
    simp only [strikeSkip] at h
    injection h with h2
    subst h2
    rfl
  | some s =>
    simp only [strikeSkip] at h
    by_cases hn : isPyNone rs = true
    · rw [if_pos hn] at h
      injection h with h2
      subst h2
      simp [specStrikeKeep, hn]
    · rw [if_neg hn] at h
      cases hf : pyFloat rs with
      | none =>
        rw [hf] at h
        exact Except.noConfusion h
      | some r =>
        rw [hf] at h
        injection h with h2
        subst h2
        simp only [specStrikeKeep, hf, Bool.not_eq_eq_eq_not]
        by_cases hrs : r = s
        · simp [hn, hrs]
        · simp [hn, hrs]

/-- The accumulation loop equals the spec-level per-row flatMap when every
dict row has a coercible (or absent) strike. -/
theorem selectRows_eq_spec (strike : Option ℚ) (right : Option String) :
    ∀ option_chain : List PyValue,
      (∀ kvs, PyValue.dict kvs ∈ option_chain →
        strikeSkip strike (rowGet kvs "strike_price") ≠ .error ()) →
      selectRows strike right option_chain =
        .ok (option_chain.flatMap (fun row =>
          match row with
          | .dict kvs =>
            if specStrikeKeep strike (rowGet kvs "strike_price")
            then sideRecords kvs right
            else []
          | _ => [])) := by
  intro option_chain
  induction option_chain with
  | nil => intro _; rfl
  | cons row rest ih =>
    intro hco
    have hco2 : ∀ kvs, PyValue.dict kvs ∈ rest →
        strikeSkip strike (rowGet kvs "strike_price") ≠ .error () :=
      fun kvs hk => hco kvs (by simp [hk])
    cases row with
    | dict kvs =>
      have hd := hco kvs (by simp)
      cases hsk : strikeSkip strike (rowGet kvs "strike_price") with
      | error u => cases u; exact absurd hsk hd
      | ok b =>
        have hkeep := strikeSkip_ok_iff strike (rowGet kvs "strike_price") b hsk
        simp only [selectRows, hsk]
        rw [ih hco2]
        cases b with
        | false =>
          simp only [Bool.not_false] at hkeep
          simp [List.flatMap_cons, hkeep, Bind.bind, Except.bind, Pure.pure, Except.pure]
        | true =>
          simp only [Bool.not_true] at hkeep
          simp [List.flatMap_cons, hkeep, Bind.bind, Except.bind, Pure.pure, Except.pure]
    | pynone => simp only [selectRows]; rw [ih hco2]; simp [List.flatMap_cons]
    | bool b => simp only [selectRows]; rw [ih hco2]; simp [List.flatMap_cons]
    | int n => simp only [selectRows]; rw [ih hco2]; simp [List.flatMap_cons]
    | float q => simp only [selectRows]; rw [ih hco2]; simp [List.flatMap_cons]
    | str t => simp only [selectRows]; rw [ih hco2]; simp [List.flatMap_cons]
    | decimal d => simp only [selectRows]; rw [ih hco2]; simp [List.flatMap_cons]
    | datetime iso => simp only [selectRows]; rw [ih hco2]; simp [List.flatMap_cons]
    | enum u => simp only [selectRows]; rw [ih hco2]; simp [List.flatMap_cons]
    | dataclass fs => simp only [selectRows]; rw [ih hco2]; simp [List.flatMap_cons]
    | list xs => simp only [selectRows]; rw [ih hco2]; simp [List.flatMap_cons]
    | obj fs => simp only [selectRows]; rw [ih hco2]; simp [List.flatMap_cons]

/-- Filtering distributes into a flatMap. -/
theorem filter_flatMap_distrib {α β : Type} (l : List α) (f : α → List β)
    (p : β → Bool) :
    (l.flatMap f).filter p = l.flatMap (fun a => (f a).filter p) := by
  induction l with
  | nil => rfl
  | cons a rest ih => simp [List.flatMap_cons, List.filter_append, ih]

/-- Claim C3: on chains whose strikes coerce (or are absent), the filter
skips exactly the rows whose strike differs numerically from the requested
one, emits per remaining row only the requested sides (call before put,
both when `right` is unset), and omits any side whose symbol field is
empty — i.e. it agrees with the spec-level `filterChainSpec`, which
processes rows in input order. -/
theorem filter_chain_rows_spec (option_chain : List PyValue) (strike : Option ℚ)
    (right : Option String)
    (hco : ∀ kvs, PyValue.dict kvs ∈ option_chain →
      strikeSkip strike (rowGet kvs "strike_price") ≠ .error ()) :
    filter_chain_rows option_chain strike right
      = .ok (filterChainSpec option_chain strike right) := by
  unfold filter_chain_rows
  rw [selectRows_eq_spec strike right option_chain hco]
  unfold filterChainSpec
  simp only [Except.map]
  rw [filter_flatMap_distrib]
  have hfun : (fun a : PyValue =>
      List.filter recordKept
        (match a with
        | PyValue.dict kvs =>
          if specStrikeKeep strike (rowGet kvs "strike_price") = true
          then sideRecords kvs right else []
        | _ => [])) =
      (fun row : PyValue =>
        match row with
        | PyValue.dict kvs =>
          if specStrikeKeep strike (rowGet kvs "strike_price") = true
          then List.filter recordKept (sideRecords kvs right)
          else []
        | _ => []) := by
    funext row
    cases row with
    | dict kvs =>
      by_cases hk : specStrikeKeep strike (rowGet kvs "strike_price") = true
      · simp [hk]
      · simp [hk]
    | pynone => rfl
    | bool b => rfl
    | int n => rfl
    | float q => rfl
    | str t => rfl
    | decimal d => rfl
    | datetime iso => rfl
    | enum u => rfl
    | dataclass fs => rfl
    | list xs => rfl
    | obj fs => rfl
  rw [hfun]

/-- Witness for C3 on the two-row example chain of the specification:
with `strike = 105` and no `right`, exactly the call and put records of
the 105 row are produced, call first. -/
theorem filter_chain_rows_spec_witness :
    filter_chain_rows chainC3 (some 105) Option.none
      = .ok [.dict [("strike_price", .int 105), ("symbol", .str "C2"),
                    ("type", .str "call")],
             .dict [("strike_price", .int 105), ("symbol", .str "P2"),
                    ("type", .str "put")]] := by
  have h := filter_chain_rows_spec chainC3 (some 105) Option.none
    (by
      intro kvs hk
      simp only [chainC3, List.mem_cons, List.not_mem_nil, or_false] at hk
      rcases hk with h1 | h1
      · injection h1 with h2
        subst h2
        exact fun hemp => Except.noConfusion hemp
      · injection h1 with h2
        subst h2
        exact fun hemp => Except.noConfusion hemp)
  rw [h]
  rfl

/-- Claim C9: a dict chain row whose strike field is missing or null is
never excluded by the strike filter: even with a strike requested, its
requested sides (those with truthy symbols) are emitted in front of the
rest of the output. -/
theorem filter_chain_rows_missing_strike (kvs : List (String × PyValue))
    (rest : List PyValue) (s : ℚ) (right : Option String)
    (hnone : isPyNone (rowGet kvs "strike_price") = true) :
    filter_chain_rows (.dict kvs :: rest) (some s) right
      = (filter_chain_rows rest (some s) right).map
          (fun tail => (sideRecords kvs right).filter recordKept ++ tail) := by
  unfold filter_chain_rows
  have hsk : strikeSkip (some s) (rowGet kvs "strike_price") = .ok false := by
    simp only [strikeSkip]
    rw [if_pos hnone]
  simp only [selectRows, hsk]
  cases hrest : selectRows (some s) right rest with
  | error u => rfl
  | ok t =>
    simp [List.filter_append, Bind.bind, Except.bind, Pure.pure, Except.pure, Except.map]

/-- Witness for C9: a row with no strike field passes a `strike = 105`
filter and contributes its sides. -/
theorem filter_chain_rows_missing_strike_witness :
    filter_chain_rows
        [.dict [("call_symbol", .str "C0"), ("put_symbol", .str "P0")]]
        (some 105) Option.none
      = .ok [.dict [("strike_price", .pynone), ("symbol", .str "C0"),
                    ("type", .str "call")],
             .dict [("strike_price", .pynone), ("symbol", .str "P0"),
                    ("type", .str "put")]] := by
  have h := filter_chain_rows_missing_strike
    [("call_symbol", .str "C0"), ("put_symbol", .str "P0")] [] 105 Option.none rfl
  rw [h]
  rfl

/-! ### C5: partial-failure tolerance of the per-symbol loop -/

/-- The generalized loop invariant for the scenario in which exactly the
depth call of one symbol fails: the saved method names are the first
candidates once anything succeeded, each failure appends exactly one error
entry, and every successful retrieval appends its row. -/
theorem perSymbolLoop_aux {ε : Type} (ctx : Ctx ε) (toMsg : ε → String)
    (gd gt gb : List PyValue → Except ε PyValue) (dv tv bv : String → PyValue)
    (badSym : String) (eBad : ε)
    (hd : ctx "depth" = some gd) (hsd : ctx "security_depth" = Option.none)
    (hdbad : gd [.str badSym] = .error eBad)
    (hdok : ∀ s : String, s ≠ badSym → gd [.str s] = .ok (dv s))
    (ht : ctx "trades" = some gt) (htok : ∀ s : String, gt [.str s] = .ok (tv s))
    (hb : ctx "brokers" = some gb) (hbok : ∀ s : String, gb [.str s] = .ok (bv s)) :
    ∀ (syms : List String) (st : LoopState),
      (st.depth_method = Option.none ∨ st.depth_method = some "depth") →
      st.trade_method = Option.none ∨ st.trade_method = some "trades" →
      st.broker_method = Option.none ∨ st.broker_method = some "brokers" →
      (perSymbolLoop ctx toMsg syms st).errors
          = st.errors ++ (syms.filter (fun s => s == badSym)).map
              (fun s => ⟨s, "depth", toMsg eBad⟩)
        ∧ (perSymbolLoop ctx toMsg syms st).depth_rows
          = st.depth_rows ++ (syms.filter (fun s => s != badSym)).map
              (fun s => .dict [("symbol", .str s), ("data", to_python (dv s))])
        ∧ (perSymbolLoop ctx toMsg syms st).trade_rows
          = st.trade_rows ++ syms.map
              (fun s => .dict [("symbol", .str s), ("data", to_python (tv s))])
        ∧ (perSymbolLoop ctx toMsg syms st).broker_rows
          = st.broker_rows ++ syms.map
              (fun s => .dict [("symbol", .str s), ("data", to_python (bv s))]) := by
  have hcd : ∀ saved, (saved = Option.none ∨ saved = some "depth") → ∀ sym : String,
      catCall ctx ["depth", "security_depth"] saved sym
        = if sym = badSym then .error (.raised eBad) else .ok ("depth", dv sym) := by
    intro saved hs sym
    by_cases hsym : sym = badSym
    · subst hsym
      rw [if_pos rfl]
      rcases hs with rfl | rfl
      · simp [catCall, callCtx, try_call, try_call_go, hd, hsd, hdbad]
      · simp [catCall, callCtx, try_call, try_call_go, hd, hdbad]
    · rw [if_neg hsym]
      rcases hs with rfl | rfl
      · simp [catCall, callCtx, try_call, try_call_go, hd, hdok sym hsym]
      · simp [catCall, callCtx, try_call, try_call_go, hd, hdok sym hsym]
  have hct : ∀ saved, (saved = Option.none ∨ saved = some "trades") → ∀ sym : String,
      catCall ctx ["trades", "security_trades"] saved sym = .ok ("trades", tv sym) := by
    intro saved hs sym
    rcases hs with rfl | rfl
    · simp [catCall, callCtx, try_call, try_call_go, ht, htok sym]
    · simp [catCall, callCtx, try_call, try_call_go, ht, htok sym]
  have hcb : ∀ saved, (saved = Option.none ∨ saved = some "brokers") → ∀ sym : String,
      catCall ctx ["brokers", "security_brokers"] saved sym = .ok ("brokers", bv sym) := by
    intro saved hs sym
    rcases hs with rfl | rfl
    · simp [catCall, callCtx, try_call, try_call_go, hb, hbok sym]
    · simp [catCall, callCtx, try_call, try_call_go, hb, hbok sym]
  intro syms
  induction syms with
  | nil =>
    intro st _ _ _
    simp [perSymbolLoop]
  | cons sym rest ih =>
    intro st hdm htm hbm
    have hgt : st.trade_method.getD "trades" = "trades" := by
      rcases htm with h | h <;> rw [h] <;> rfl
    have hgb : st.broker_method.getD "brokers" = "brokers" := by
      rcases hbm with h | h <;> rw [h] <;> rfl
    have ht1 : ∀ (rows : List PyValue) (errs : List ErrEntry),
        stepCategory ctx toMsg ["trades", "security_trades"] "trades" sym
          st.trade_method rows errs
          = (some "trades",
             rows ++ [.dict [("symbol", .str sym), ("data", to_python (tv sym))]],
             errs) := by
      intro rows errs
      simp only [stepCategory, hct st.trade_method htm sym, hgt]
    have hb1 : ∀ (rows : List PyValue) (errs : List ErrEntry),
        stepCategory ctx toMsg ["brokers", "security_brokers"] "brokers" sym
          st.broker_method rows errs
          = (some "brokers",
             rows ++ [.dict [("symbol", .str sym), ("data", to_python (bv sym))]],
             errs) := by
      intro rows errs
      simp only [stepCategory, hcb st.broker_method hbm sym, hgb]
    by_cases hsym : sym = badSym
    · have hd1 : stepCategory ctx toMsg ["depth", "security_depth"] "depth" sym
          st.depth_method st.depth_rows st.errors
          = (st.depth_method, st.depth_rows,
             st.errors ++ [⟨sym, "depth", toMsg eBad⟩]) := by
        simp only [stepCategory, hcd st.depth_method hdm sym, if_pos hsym, pyErrMsg]
      simp only [perSymbolLoop, hd1, ht1, hb1]
      have hrec := ih ⟨st.depth_method, some "trades", some "brokers",
          st.depth_rows,
          st.trade_rows ++ [.dict [("symbol", .str sym), ("data", to_python (tv sym))]],
          st.broker_rows ++ [.dict [("symbol", .str sym), ("data", to_python (bv sym))]],
          st.errors ++ [⟨sym, "depth", toMsg eBad⟩]⟩
        hdm (Or.inr rfl) (Or.inr rfl)
      refine ⟨?_, ?_, ?_, ?_⟩
      · rw [hrec.1]
        simp [List.filter_cons, hsym]
      · rw [hrec.2.1]
        simp [List.filter_cons, hsym]
      · rw [hrec.2.2.1]
        simp
      · rw [hrec.2.2.2]
        simp
    · have hd1 : stepCategory ctx toMsg ["depth", "security_depth"] "depth" sym
          st.depth_method st.depth_rows st.errors
          = (some "depth",
             st.depth_rows ++ [.dict [("symbol", .str sym), ("data", to_python (dv sym))]],
             st.errors) := by
        have hgd : st.depth_method.getD "depth" = "depth" := by
          rcases hdm with h | h <;> rw [h] <;> rfl
        simp only [stepCategory, hcd st.depth_method hdm sym, if_neg hsym, hgd]
      simp only [perSymbolLoop, hd1, ht1, hb1]
      have hrec := ih ⟨some "depth", some "trades", some "brokers",
          st.depth_rows ++ [.dict [("symbol", .str sym), ("data", to_python (dv sym))]],
          st.trade_rows ++ [.dict [("symbol", .str sym), ("data", to_python (tv sym))]],
          st.broker_rows ++ [.dict [("symbol", .str sym), ("data", to_python (bv sym))]],
          st.errors⟩
        (Or.inr rfl) (Or.inr rfl) (Or.inr rfl)
      refine ⟨?_, ?_, ?_, ?_⟩
      · rw [hrec.1]
        simp [List.filter_cons, hsym]
      · rw [hrec.2.1]
        simp [List.filter_cons, hsym]
      · rw [hrec.2.2.1]
        simp
      · rw [hrec.2.2.2]
        simp

/-- Claim C5: in the per-symbol depth/trades/brokers loop, when the depth
retrieval of exactly one symbol raises while everything else succeeds, the
failure is caught individually and recorded as exactly one error entry
carrying that symbol, the category name and the failure message; the run
is not aborted, and the rows of every symbol whose retrieval succeeded all
appear, in order, in the loop result. -/
theorem perSymbolLoop_partial_failure {ε : Type} (ctx : Ctx ε) (toMsg : ε → String)
    (gd gt gb : List PyValue → Except ε PyValue) (dv tv bv : String → PyValue)
    (badSym : String) (eBad : ε) (syms : List String)
    (hd : ctx "depth" = some gd) (hsd : ctx "security_depth" = Option.none)
    (hdbad : gd [.str badSym] = .error eBad)
    (hdok : ∀ s : String, s ≠ badSym → gd [.str s] = .ok (dv s))
    (ht : ctx "trades" = some gt) (htok : ∀ s : String, gt [.str s] = .ok (tv s))
    (hb : ctx "brokers" = some gb) (hbok : ∀ s : String, gb [.str s] = .ok (bv s)) :
    (perSymbolLoop ctx toMsg syms initLoopState).errors
        = (syms.filter (fun s => s == badSym)).map
            (fun s => ⟨s, "depth", toMsg eBad⟩)
      ∧ (perSymbolLoop ctx toMsg syms initLoopState).depth_rows
        = (syms.filter (fun s => s != badSym)).map
            (fun s => .dict [("symbol", .str s), ("data", to_python (dv s))])
      ∧ (perSymbolLoop ctx toMsg syms initLoopState).trade_rows
        = syms.map (fun s => .dict [("symbol", .str s), ("data", to_python (tv s))])
      ∧ (perSymbolLoop ctx toMsg syms initLoopState).broker_rows
        = syms.map (fun s => .dict [("symbol", .str s), ("data", to_python (bv s))]) := by
  have h := perSymbolLoop_aux ctx toMsg gd gt gb dv tv bv badSym eBad
    hd hsd hdbad hdok ht htok hb hbok syms initLoopState
    (Or.inl rfl) (Or.inl rfl) (Or.inl rfl)
  simpa [initLoopState] using h

/-- Witness for C5 at a concrete client: of the symbols `A`, `B`, `C`,
only the depth call of `B` raises; the loop completes with exactly one
error entry for `(B, depth)`, depth rows for `A` and `C`, and trades and
brokers rows for all three. -/
theorem perSymbolLoop_partial_failure_witness :
    (perSymbolLoop ctxC5 (fun s => s) ["A", "B", "C"] initLoopState).errors
        = [⟨"B", "depth", "boom"⟩]
    ∧ (perSymbolLoop ctxC5 (fun s => s) ["A", "B", "C"] initLoopState).depth_rows
        = [.dict [("symbol", .str "A"), ("data", .pynone)],
           .dict [("symbol", .str "C"), ("data", .pynone)]]
    ∧ (perSymbolLoop ctxC5 (fun s => s) ["A", "B", "C"] initLoopState).trade_rows
        = [.dict [("symbol", .str "A"), ("data", .pynone)],
           .dict [("symbol", .str "B"), ("data", .pynone)],
           .dict [("symbol", .str "C"), ("data", .pynone)]]
    ∧ (perSymbolLoop ctxC5 (fun s => s) ["A", "B", "C"] initLoopState).broker_rows
        = [.dict [("symbol", .str "A"), ("data", .pynone)],
           .dict [("symbol", .str "B"), ("data", .pynone)],
           .dict [("symbol", .str "C"), ("data", .pynone)]] := by
  have h := perSymbolLoop_partial_failure ctxC5 (fun s => s)
    (fun args =>
      match args with
      | [.str s] => if s = "B" then .error "boom" else .ok .pynone
      | _ => .ok .pynone)
    (fun _ => .ok .pynone) (fun _ => .ok .pynone)
    (fun _ => .pynone) (fun _ => .pynone) (fun _ => .pynone)
    "B" "boom" ["A", "B", "C"]
    rfl rfl rfl
    (by intro s hs; simp [hs])
    rfl (fun s => rfl) rfl (fun s => rfl)
  refine ⟨?_, ?_, ?_, ?_⟩
  · rw [h.1]
    rfl
  · rw [h.2.1]
    simp [to_python]
  · rw [h.2.2.1]
    simp [to_python]
  · rw [h.2.2.2]
    simp [to_python]

/-! ### C8: fail-fast expiry validation -/

/-- The invoker only probes the client at the candidate names. -/
theorem try_call_go_congr {ε α : Type} (f1 f2 : String → Option (Except ε α))
    (allNames : List String) :
    ∀ (l : List String) (last : Option ε), (∀ n ∈ l, f1 n = f2 n) →
      try_call_go f1 allNames l last = try_call_go f2 allNames l last := by
  intro l
  induction l with
  | nil => intro last _; cases last <;> rfl
  | cons n rest ih =>
    intro last h
    have hn : f1 n = f2 n := h n (by simp)
    rw [try_call_go, try_call_go, hn]
    cases f2 n with
    | none => exact ih last (fun m hm => h m (by simp [hm]))
    | some r =>
      cases r with
      | ok v => rfl
      | error e => exact ih (some e) (fun m hm => h m (by simp [hm]))

/-- `callCtx` only probes the client at the candidate names. -/
theorem callCtx_congr {ε : Type} (ctx1 ctx2 : Ctx ε) (names : List String)
    (args : List PyValue) (h : ∀ n ∈ names, ctx1 n = ctx2 n) :
    callCtx ctx1 names args = callCtx ctx2 names args := by
  unfold callCtx try_call
  exact try_call_go_congr _ _ names names Option.none
    (fun n hn => by rw [h n hn])

/-- Claim C8: when the requested expiry is not among the normalized
available expiry dates, the run terminates with the fatal user-facing
`SystemExit` whose message reports the requested expiry, the symbol, and
the full sorted set of available dates — and it does so for every client
that agrees on the expiry-listing candidates, whatever its chain or
batched-fetch operations do, so no chain retrieval or data fetch is
performed before failing. -/
theorem runMain_expiry_validation {ε : Type} (ctx : Ctx ε) (toMsg : ε → String)
    (args : Args) (em : String) (ds : List PyValue) (dateStrs : List String)
    (hexp : callCtx ctx expiryNames [.str (normalize_symbol args.symbol)]
      = .ok (em, .list ds))
    (hstrs : mapStrs (ds.map to_python) = some dateStrs)
    (hmem : pyStrMem args.expiry (ds.map to_python) = false) :
    runMain ctx toMsg args
        = .error (.system_exit
            (expiryExitMsg args.expiry (normalize_symbol args.symbol)
              (String.intercalate ", " (sortedDedup dateStrs))))
      ∧ ∀ ctx2 : Ctx ε, (∀ n ∈ expiryNames, ctx2 n = ctx n) →
          runMain ctx2 toMsg args
            = .error (.system_exit
                (expiryExitMsg args.expiry (normalize_symbol args.symbol)
                  (String.intercalate ", " (sortedDedup dateStrs)))) := by
  have main : ∀ ctx2 : Ctx ε,
      callCtx ctx2 expiryNames [.str (normalize_symbol args.symbol)]
        = .ok (em, .list ds) →
      runMain ctx2 toMsg args
        = .error (.system_exit
            (expiryExitMsg args.expiry (normalize_symbol args.symbol)
              (String.intercalate ", " (sortedDedup dateStrs)))) := by
    intro ctx2 hexp2
    unfold runMain
    simp only [hexp2, hmem, Bool.false_eq_true, if_false, hstrs]
  refine ⟨main ctx hexp, ?_⟩
  intro ctx2 hagree
  exact main ctx2 (by rw [callCtx_congr ctx2 ctx expiryNames _ hagree]; exact hexp)

/-- Witness for C8 on the specification example: the misspelled symbol is
corrected to `AAPL.US`, the requested expiry `2025-01-17` is not among
`{2025-01-10, 2025-01-24}`, and the run exits with the message listing
both alternatives in sorted order. -/
theorem runMain_expiry_validation_witness :
    runMain ctxC8 (fun s => s) ⟨"APPL.US", "2025-01-17", 50, Option.none, Option.none⟩
      = .error (.system_exit
          ("到期日 2025-01-17 不在可选列表中。\n标的: AAPL.US\n可选到期日: 2025-01-10, 2025-01-24")) := by
  have h := (runMain_expiry_validation ctxC8 (fun s => s)
    ⟨"APPL.US", "2025-01-17", 50, Option.none, Option.none⟩
    "option_chain_expiry_date_list"
    [.datetime "2025-01-24", .datetime "2025-01-10"]
    ["2025-01-24", "2025-01-10"]
    rfl
    (by simp [to_python, mapStrs, pyStrOf])
    (by simp [pyStrMem, to_python, pyStrOf])).1
  rw [h]
  rfl

/-! ### C7: exactness of the decimal-to-string normalization -/

/-- The code point of a digit character. -/
theorem digitChar_toNat (d : Nat) (hd : d < 10) : (digitChar d).toNat = 48 + d := by
  interval_cases d <;> decide

/-- A digit character parses back to its digit. -/
theorem charDigitVal_digitChar (d : Nat) (hd : d < 10) :
    charDigitVal (digitChar d) = some d := by
  interval_cases d <;> decide

/-- Digit characters are digit characters. -/
theorem isDigit_digitChar (d : Nat) (hd : d < 10) :
    48 ≤ (digitChar d).toNat ∧ (digitChar d).toNat ≤ 57 := by
  rw [digitChar_toNat d hd]
  omega

/-- A digit character is not a sign, a dot, or an exponent marker. -/
theorem digit_not_special (c : Char) (hc : 48 ≤ c.toNat ∧ c.toNat ≤ 57) :
    c ≠ 'E' ∧ c ≠ 'e' ∧ c ≠ '.' ∧ c ≠ '-' ∧ c ≠ '+' := by
  refine ⟨?_, ?_, ?_, ?_, ?_⟩ <;> intro h <;> subst h <;> revert hc <;> decide

/-- The value of a big-endian digit string, one cons step. -/
theorem digitsVal_cons (d : Nat) (ds : List Nat) :
    digitsVal (d :: ds) = digitsVal ds + 10 ^ ds.length * d := by
  unfold digitsVal
  rw [List.reverse_cons, Nat.ofDigits_append]
  simp [Nat.ofDigits]

/-- The value of a concatenation of big-endian digit strings. -/
theorem digitsVal_append (a b : List Nat) :
    digitsVal (a ++ b) = digitsVal a * 10 ^ b.length + digitsVal b := by
  unfold digitsVal
  rw [List.reverse_append, Nat.ofDigits_append, List.length_reverse]
  ring

/-- Leading zeros do not change the value. -/
theorem digitsVal_replicate_zero (k : Nat) (ds : List Nat) :
    digitsVal (List.replicate k 0 ++ ds) = digitsVal ds := by
  rw [digitsVal_append]
  have : digitsVal (List.replicate k 0) = 0 := by
    unfold digitsVal
    rw [List.reverse_replicate]
    induction k with
    | zero => rfl
    | succ m ih => rw [List.replicate_succ, Nat.ofDigits_cons, ih]
  rw [this]
  omega

/-- Parsing the rendering of a digit list recovers its value. -/
theorem charsNat_map_digitChar (l : List Nat) (hl : ∀ x ∈ l, x < 10) :
    charsNat (l.map digitChar) = some (digitsVal l) := by
  induction l with
  | nil => rfl
  | cons d ds ih =>
    have hd : d < 10 := hl d (by simp)
    have hds : ∀ x ∈ ds, x < 10 := fun x hx => hl x (by simp [hx])
    simp only [List.map_cons, charsNat, charDigitVal_digitChar d hd, ih hds,
      Option.bind_eq_bind, Option.some_bind, List.length_map]
    rw [digitsVal_cons]
    congr 1
    ring

/-- `natDigitsGo` digits are base-ten digits. -/
theorem natDigitsGo_lt (fuel n : Nat) : ∀ x ∈ natDigitsGo fuel n, x < 10 := by
  induction fuel generalizing n with
  | zero =>
    intro x hx
    cases n with
    | zero => simp [natDigitsGo] at hx
    | succ m => simp [natDigitsGo] at hx
  | succ f ih =>
    intro x hx
    cases n with
    | zero => simp [natDigitsGo] at hx
    | succ m =>
      rw [natDigitsGo] at hx
      rcases List.mem_cons.mp hx with rfl | hmem
      · omega
      · exact ih _ x hmem

/-- With enough fuel, `natDigitsGo` produces the base-ten digits of `n`. -/
theorem natDigitsGo_ofDigits : ∀ fuel n, n ≤ fuel →
    Nat.ofDigits 10 (natDigitsGo fuel n) = n := by
  intro fuel
  induction fuel with
  | zero =>
    intro n h
    interval_cases n
    simp [natDigitsGo]
  | succ f ih =>
    intro n h
    match n with
    | 0 => simp [natDigitsGo]
    | m + 1 =>
      rw [natDigitsGo, Nat.ofDigits_cons, ih ((m + 1) / 10) (by omega)]
      omega

/-- Parsing the decimal print of a natural number recovers it. -/
theorem charsNat_natChars (m : Nat) : charsNat (natChars m) = some m := by
  unfold natChars
  by_cases hm : m = 0
  · rw [if_pos hm, hm]
    decide
  · rw [if_neg hm]
    rw [← List.map_reverse]
    rw [charsNat_map_digitChar _ (fun x hx => natDigitsGo_lt m m x (List.mem_reverse.mp hx))]
    unfold digitsVal
    rw [List.reverse_reverse, natDigitsGo_ofDigits m m le_rfl]

/-- The print of a natural number is non-empty. -/
theorem natChars_ne_nil (m : Nat) : natChars m ≠ [] := by
  unfold natChars
  by_cases hm : m = 0
  · rw [if_pos hm]; simp
  · rw [if_neg hm]
    simp only [ne_eq, List.reverse_eq_nil_iff, List.map_eq_nil_iff]
    cases m with
    | zero => exact absurd rfl hm
    | succ k => simp [natDigitsGo]

/-- Parsing the signed print of an integer recovers it. -/
theorem parseExpPart_intSignedChars (a : Int) :
    parseExpPart (intSignedChars a) = some a := by
  unfold intSignedChars
  by_cases ha : a < 0
  · rw [if_pos ha]
    rw [parseExpPart, if_neg (natChars_ne_nil _), charsNat_natChars]
    simp
    rw [abs_of_neg ha]
    omega
  · rw [if_neg ha]
    rw [parseExpPart, if_neg (natChars_ne_nil _), charsNat_natChars]
    simp
    omega

/-- `splitOnE` leaves a marker-free list whole. -/
theorem splitOnE_no (cs : List Char) (h : ∀ c ∈ cs, ¬(c = 'E' ∨ c = 'e')) :
    splitOnE cs = (cs, Option.none) := by
  induction cs with
  | nil => rfl
  | cons c rest ih =>
    rw [splitOnE, if_neg (h c (by simp))]
    simp only [ih (fun x hx => h x (by simp [hx]))]

/-- `splitOnE` splits at an explicit marker after marker-free characters. -/
theorem splitOnE_append (xs ys : List Char) (h : ∀ c ∈ xs, ¬(c = 'E' ∨ c = 'e')) :
    splitOnE (xs ++ 'E' :: ys) = (xs, some ys) := by
  induction xs with
  | nil => rw [List.nil_append, splitOnE, if_pos (by simp)]
  | cons c rest ih =>
    rw [List.cons_append, splitOnE, if_neg (h c (by simp))]
    simp only [ih (fun x hx => h x (by simp [hx]))]

/-- `splitOnDot` leaves a dot-free list whole. -/
theorem splitOnDot_no (cs : List Char) (h : ∀ c ∈ cs, c ≠ '.') :
    splitOnDot cs = (cs, Option.none) := by
  induction cs with
  | nil => rfl
  | cons c rest ih =>
    rw [splitOnDot, if_neg (h c (by simp))]
    simp only [ih (fun x hx => h x (by simp [hx]))]

/-- `splitOnDot` splits at an explicit dot after dot-free characters. -/
theorem splitOnDot_append (xs ys : List Char) (h : ∀ c ∈ xs, c ≠ '.') :
    splitOnDot (xs ++ '.' :: ys) = (xs, some ys) := by
  induction xs with
  | nil => rw [List.nil_append, splitOnDot, if_pos rfl]
  | cons c rest ih =>
    rw [List.cons_append, splitOnDot, if_neg (h c (by simp))]
    simp only [ih (fun x hx => h x (by simp [hx]))]

/-- Leading zero characters do not change the parsed value. -/
theorem charsNat_replicate_zero (k : Nat) (cs : List Char) :
    charsNat (List.replicate k '0' ++ cs) = charsNat cs := by
  induction k with
  | zero => simp
  | succ m ih =>
    rw [List.replicate_succ, List.cons_append]
    simp only [charsNat]
    rw [show charDigitVal '0' = some 0 from rfl, ih]
    cases charsNat cs with
    | none => rfl
    | some v => simp

/-- A mantissa starting with a non-sign character parses unsigned. -/
theorem parseSignedMantissa_not_sign (c : Char) (rest : List Char)
    (h1 : c ≠ '-') (h2 : c ≠ '+') :
    parseSignedMantissa (c :: rest) = parseMantissa (c :: rest) := by
  rw [parseSignedMantissa.eq_def]
  split
  · next heq => injection heq with hc _; exact absurd hc h1
  · next heq => injection heq with hc _; exact absurd hc h2
  · rfl

/-- A dot-free non-empty digit rendering parses to the digit value. -/
theorem parseMantissa_digits (l : List Nat) (hl : l ≠ []) (hd : ∀ x ∈ l, x < 10) :
    parseMantissa (l.map digitChar) = some ((digitsVal l : ℚ)) := by
  have hnodot : ∀ c ∈ l.map digitChar, c ≠ '.' := by
    intro c hc
    rcases List.mem_map.mp hc with ⟨x, hx, rfl⟩
    exact (digit_not_special _ (isDigit_digitChar x (hd x hx))).2.2.1
  unfold parseMantissa
  rw [splitOnDot_no _ hnodot]
  simp only [List.map_eq_nil_iff]
  rw [if_neg hl, charsNat_map_digitChar l hd]
  rfl

/-- The rendering `0.<zeros><digits>` parses to the fraction it denotes. -/
theorem parseMantissa_zero_dot (k : Nat) (l : List Nat) (hd : ∀ x ∈ l, x < 10) :
    parseMantissa ('0' :: '.' :: (List.replicate k '0' ++ l.map digitChar))
      = some ((digitsVal l : ℚ) / 10 ^ (k + l.length)) := by
  have hsplit : splitOnDot ('0' :: '.' :: (List.replicate k '0' ++ l.map digitChar))
      = (['0'], some (List.replicate k '0' ++ l.map digitChar)) := by
    rw [splitOnDot, if_neg (by decide)]
    rw [splitOnDot, if_pos rfl]
  unfold parseMantissa
  rw [hsplit]
  simp only
  rw [if_neg (by simp)]
  rw [charsNat_replicate_zero, charsNat_map_digitChar l hd]
  simp only [show charsNat ['0'] = some 0 from rfl]
  simp [Option.bind]

/-- The rendering `<take k>.<drop k>` parses to the split value. -/
theorem parseMantissa_take_drop (l : List Nat) (k : Nat) (hk1 : 0 < k)
    (hk2 : k < l.length) (hd : ∀ x ∈ l, x < 10) :
    parseMantissa ((l.map digitChar).take k ++ '.' :: (l.map digitChar).drop k)
      = some ((digitsVal (l.take k) : ℚ)
          + (digitsVal (l.drop k) : ℚ) / 10 ^ (l.length - k)) := by
  have hnodot : ∀ c ∈ (l.map digitChar).take k, c ≠ '.' := by
    intro c hc
    have hc2 : c ∈ l.map digitChar := List.mem_of_mem_take hc
    rcases List.mem_map.mp hc2 with ⟨x, hx, rfl⟩
    exact (digit_not_special _ (isDigit_digitChar x (hd x hx))).2.2.1
  unfold parseMantissa
  rw [splitOnDot_append _ _ hnodot]
  simp only
  rw [if_neg (by
    rintro ⟨_, h2⟩
    have hlen := congrArg List.length h2
    simp only [List.length_drop, List.length_map, List.length_nil] at hlen
    omega)]
  rw [← List.map_take, ← List.map_drop]
  rw [charsNat_map_digitChar _ (fun x hx => hd x (List.mem_of_mem_take hx))]
  rw [charsNat_map_digitChar _ (fun x hx => hd x (List.mem_of_mem_drop hx))]
  simp only [Option.bind, List.length_map, List.length_drop]
  rfl

/-- `parseSciChars` on a marker-free split reduces to the mantissa parse. -/
theorem parseSciChars_eq_of_split (cs m : List Char)
    (h : splitOnE cs = (m, Option.none)) :
    parseSciChars cs = parseSignedMantissa m := by
  unfold parseSciChars
  rw [h]

/-- `parseSciChars` on a split at a marker combines mantissa and
exponent. -/
theorem parseSciChars_eq_of_split_exp (cs m es : List Char)
    (h : splitOnE cs = (m, some es)) :
    parseSciChars cs = (do
      let q ← parseSignedMantissa m
      let e ← parseExpPart es
      pure (q * (10 : ℚ) ^ e)) := by
  unfold parseSciChars
  rw [h]

/-- Attaching a sign prefix to a parsed mantissa. -/
theorem parseSciChars_signed (sign : Bool) (c : Char) (rest : List Char) (q : ℚ)
    (hmant : parseMantissa (c :: rest) = some q)
    (hc1 : c ≠ '-') (hc2 : c ≠ '+')
    (hnoE : ∀ x ∈ c :: rest, ¬(x = 'E' ∨ x = 'e')) :
    parseSciChars ((if sign then ['-'] else []) ++ (c :: rest))
      = some ((if sign then (-1 : ℚ) else 1) * q) := by
  cases sign with
  | true =>
    show parseSciChars ('-' :: c :: rest) = some ((-1 : ℚ) * q)
    rw [parseSciChars_eq_of_split _ _ (splitOnE_no _ (by
      intro x hx
      rcases List.mem_cons.mp hx with rfl | hx2
      · decide
      · exact hnoE x hx2))]
    show (parseMantissa (c :: rest)).map (fun x => -x) = some ((-1 : ℚ) * q)
    rw [hmant]
    simp
  | false =>
    show parseSciChars (c :: rest) = some ((1 : ℚ) * q)
    rw [parseSciChars_eq_of_split _ _ (splitOnE_no _ hnoE)]
    rw [parseSignedMantissa_not_sign c rest hc1 hc2, hmant]
    simp

/-- Attaching a sign prefix and an exponent part to a parsed mantissa. -/
theorem parseSciChars_signed_exp (sign : Bool) (c : Char) (rest : List Char)
    (q : ℚ) (a : Int)
    (hmant : parseMantissa (c :: rest) = some q)
    (hc1 : c ≠ '-') (hc2 : c ≠ '+')
    (hnoE : ∀ x ∈ c :: rest, ¬(x = 'E' ∨ x = 'e')) :
    parseSciChars ((if sign then ['-'] else []) ++ (c :: rest) ++ 'E' :: intSignedChars a)
      = some ((if sign then (-1 : ℚ) else 1) * q * (10 : ℚ) ^ a) := by
  cases sign with
  | true =>
    show parseSciChars (('-' :: c :: rest) ++ 'E' :: intSignedChars a)
      = some ((-1 : ℚ) * q * (10 : ℚ) ^ a)
    rw [parseSciChars_eq_of_split_exp _ _ _ (splitOnE_append _ _ (by
      intro x hx
      rcases List.mem_cons.mp hx with rfl | hx2
      · decide
      · exact hnoE x hx2))]
    show (do
        let qv ← (parseMantissa (c :: rest)).map (fun x => -x)
        let e ← parseExpPart (intSignedChars a)
        pure (qv * (10 : ℚ) ^ e))
      = some ((-1 : ℚ) * q * (10 : ℚ) ^ a)
    rw [hmant, parseExpPart_intSignedChars]
    show some (-q * (10 : ℚ) ^ a) = some ((-1 : ℚ) * q * (10 : ℚ) ^ a)
    congr 1
    ring
  | false =>
    show parseSciChars ((c :: rest) ++ 'E' :: intSignedChars a)
      = some ((1 : ℚ) * q * (10 : ℚ) ^ a)
    rw [parseSciChars_eq_of_split_exp _ _ _ (splitOnE_append _ _ hnoE)]
    show (do
        let qv ← parseSignedMantissa (c :: rest)
        let e ← parseExpPart (intSignedChars a)
        pure (qv * (10 : ℚ) ^ e))
      = some ((1 : ℚ) * q * (10 : ℚ) ^ a)
    rw [parseSignedMantissa_not_sign c rest hc1 hc2, hmant, parseExpPart_intSignedChars]
    show some (q * (10 : ℚ) ^ a) = some ((1 : ℚ) * q * (10 : ℚ) ^ a)
    congr 1
    ring

/-- Digit characters are not exponent markers. -/
theorem digits_noE (l : List Nat) (hd : ∀ x ∈ l, x < 10) :
    ∀ c ∈ l.map digitChar, ¬(c = 'E' ∨ c = 'e') := by
  intro c hc
  rcases List.mem_map.mp hc with ⟨x, hx, rfl⟩
  have h := digit_not_special _ (isDigit_digitChar x (hd x hx))
  rintro (he | he)
  · exact h.1 he
  · exact h.2.1 he

/-- Dividing by a power of ten is multiplying by the matching negative
integer power. -/
theorem qdiv_pow (c : ℚ) (k : Nat) (e : Int) (he : e = -(k : Int)) :
    c / 10 ^ k = c * (10 : ℚ) ^ e := by
  subst he
  rw [zpow_neg, zpow_natCast, div_eq_mul_inv]

/-- Recombining an integer part and a fraction over a power of ten. -/
theorem qsplit_val (T D : ℚ) (m : Nat) :
    (T + D / 10 ^ m) * (10 : ℚ) ^ m = T * 10 ^ m + D := by
  have h10 : ((10 : ℚ) ^ m) ≠ 0 := pow_ne_zero m (by norm_num)
  field_simp

/-- A negative integer power of ten is the inverse of the matching natural
power. -/
theorem zpow_eq_inv_pow (e : Int) (k : Nat) (he : e = -(k : Int)) :
    (10 : ℚ) ^ e = ((10 : ℚ) ^ k)⁻¹ := by
  subst he
  rw [zpow_neg, zpow_natCast]

/-- Splitting an integer power of ten at a natural offset. -/
theorem zpow_int_add_nat (e : Int) (a : Nat) :
    (10 : ℚ) ^ (e + (a : ℤ)) = 10 ^ e * 10 ^ a := by
  rw [zpow_add₀ (by norm_num : (10 : ℚ) ≠ 0), zpow_natCast]

/-- Claim C7: normalizing a `Decimal` yields exactly the string
`str(value)` produces, and that string denotes the decimal value exactly:
parsing it back recovers the same rational number, so no precision is lost
(in contrast with a binary floating-point approximation). -/
theorem to_python_decimal_exact (d : PyDecimal) (hwf : d.WF) :
    to_python (.decimal d) = .str (pyDecimalStr d)
    ∧ parseSciChars (pyDecimalChars d) = some (decimalVal d) := by
  refine ⟨by simp [to_python], ?_⟩
  obtain ⟨sgn, digs, ex⟩ := d
  obtain ⟨hne, hdig⟩ := hwf
  replace hne : digs ≠ [] := hne
  replace hdig : ∀ x ∈ digs, x < 10 := hdig
  have hn1 : 1 ≤ digs.length := List.length_pos.mpr hne
  simp only [pyDecimalChars, decimalVal]
  by_cases hA : ex ≤ 0 ∧ ex + (digs.length : Int) > -6
  · rw [if_pos hA, if_pos rfl, List.append_nil]
    by_cases hA1 : ex + (digs.length : Int) ≤ 0
    · rw [if_pos hA1]
      have hnoE : ∀ x ∈ '0' :: '.'
          :: (List.replicate (-(ex + (digs.length : Int))).toNat '0'
              ++ digs.map digitChar), ¬(x = 'E' ∨ x = 'e') := by
        intro x hx
        rcases List.mem_cons.mp hx with rfl | hx
        · decide
        rcases List.mem_cons.mp hx with rfl | hx
        · decide
        rcases List.mem_append.mp hx with hx | hx
        · rw [List.eq_of_mem_replicate hx]
          decide
        · exact digits_noE _ hdig x hx
      rw [parseSciChars_signed sgn '0'
        ('.' :: (List.replicate (-(ex + (digs.length : Int))).toNat '0'
          ++ digs.map digitChar))
        ((digitsVal digs : ℚ)
          / 10 ^ ((-(ex + (digs.length : Int))).toNat + digs.length))
        (parseMantissa_zero_dot _ _ hdig) (by decide) (by decide) hnoE]
      rw [qdiv_pow _ _ ex (by omega)]
      congr 1
      ring
    · by_cases hA2 : ex + (digs.length : Int) ≥ (digs.length : Int)
      · rw [if_neg hA1, if_pos hA2]
        have hex0 : ex = 0 := by omega
        rw [show ex + (digs.length : Int) - (digs.length : Int) = 0 from by omega]
        simp only [Int.toNat_zero, List.replicate_zero, List.append_nil]
        cases digs with
        | nil => exact absurd rfl hne
        | cons d0 rest =>
          simp only [List.map_cons]
          rw [parseSciChars_signed sgn (digitChar d0) (rest.map digitChar)
            ((digitsVal (d0 :: rest) : ℚ))
            (by
              rw [← List.map_cons]
              exact parseMantissa_digits _ hne hdig)
            ((digit_not_special _ (isDigit_digitChar d0
              (hdig d0 (by simp)))).2.2.2.1)
            ((digit_not_special _ (isDigit_digitChar d0
              (hdig d0 (by simp)))).2.2.2.2)
            (by
              rw [← List.map_cons]
              exact digits_noE _ hdig)]
          rw [hex0]
          congr 1
          simp
      · rw [if_neg hA1, if_neg hA2]
        cases digs with
        | nil => exact absurd rfl hne
        | cons d0 rest =>
          have hlen : (d0 :: rest).length = rest.length + 1 := rfl
          obtain ⟨m, hm⟩ : ∃ m, (ex + ((d0 :: rest).length : Int)).toNat = m + 1 :=
            ⟨(ex + ((d0 :: rest).length : Int)).toNat - 1, by omega⟩
          have hmval : (m : Int) = ex + (rest.length : Int) := by omega
          have hmlt : m < rest.length := by omega
          have hmant := parseMantissa_take_drop (d0 :: rest) (m + 1)
            (by omega) (by omega) hdig
          rw [show (d0 :: rest).length - (m + 1) = rest.length - m from by omega]
            at hmant
          simp only [List.map_cons, List.take_succ_cons, List.drop_succ_cons,
            List.cons_append] at hmant
          rw [hm]
          simp only [List.map_cons, List.take_succ_cons, List.drop_succ_cons,
            List.cons_append]
          rw [parseSciChars_signed sgn (digitChar d0)
            ((rest.map digitChar).take m ++ '.' :: (rest.map digitChar).drop m)
            ((digitsVal (d0 :: rest.take m) : ℚ)
              + (digitsVal (rest.drop m) : ℚ) / 10 ^ (rest.length - m))
            hmant
            ((digit_not_special _ (isDigit_digitChar d0
              (hdig d0 (by simp)))).2.2.2.1)
            ((digit_not_special _ (isDigit_digitChar d0
              (hdig d0 (by simp)))).2.2.2.2)
            (by
              intro x hx
              rcases List.mem_cons.mp hx with rfl | hx
              · exact fun hc => by
                  rcases hc with hc | hc
                  · exact (digit_not_special _ (isDigit_digitChar d0
                      (hdig d0 (by simp)))).1 hc
                  · exact (digit_not_special _ (isDigit_digitChar d0
                      (hdig d0 (by simp)))).2.1 hc
              rcases List.mem_append.mp hx with hx | hx
              · exact digits_noE _ (fun y hy => hdig y (by simp [hy])) x
                  (List.mem_of_mem_take hx)
              rcases List.mem_cons.mp hx with rfl | hx
              · decide
              · exact digits_noE _ (fun y hy => hdig y (by simp [hy])) x
                  (List.mem_of_mem_drop hx))]
          have hsplitn : digitsVal (d0 :: rest)
              = digitsVal (d0 :: rest.take m) * 10 ^ (rest.length - m)
                + digitsVal (rest.drop m) := by
            have h := digitsVal_append ((d0 :: rest).take (m + 1))
              ((d0 :: rest).drop (m + 1))
            rw [List.take_append_drop, List.take_succ_cons, List.drop_succ_cons,
              List.length_drop] at h
            exact h
          have hzp : (10 : ℚ) ^ ex
              = ((10 : ℚ) ^ (rest.length - m : ℕ))⁻¹ :=
            zpow_eq_inv_pow ex _ (by omega)
          rw [hsplitn, hzp]
          push_cast
          have h10 : ((10 : ℚ) ^ (rest.length - m : ℕ)) ≠ 0 :=
            pow_ne_zero _ (by norm_num)
          field_simp
  · rw [if_neg hA]
    have hne1 : ex + (digs.length : Int) ≠ 1 := by
      rw [not_and_or] at hA
      push_neg at hA
      omega
    rw [if_neg hne1, if_neg (by omega : ¬ (1 : ℤ) ≤ 0)]
    by_cases hB1 : (1 : ℤ) ≥ (digs.length : Int)
    · rw [if_pos hB1]
      have hlen1 : digs.length = 1 := by omega
      rw [show (1 : ℤ) - (digs.length : Int) = 0 from by omega]
      simp only [Int.toNat_zero, List.replicate_zero, List.append_nil]
      cases digs with
      | nil => exact absurd rfl hne
      | cons d0 rest =>
        simp only [List.map_cons]
        rw [parseSciChars_signed_exp sgn (digitChar d0) (rest.map digitChar)
          ((digitsVal (d0 :: rest) : ℚ)) (ex + ((d0 :: rest).length : Int) - 1)
          (by
            rw [← List.map_cons]
            exact parseMantissa_digits _ hne hdig)
          ((digit_not_special _ (isDigit_digitChar d0
            (hdig d0 (by simp)))).2.2.2.1)
          ((digit_not_special _ (isDigit_digitChar d0
            (hdig d0 (by simp)))).2.2.2.2)
          (by
            rw [← List.map_cons]
            exact digits_noE _ hdig)]
        rw [show ex + (((d0 :: rest).length : Nat) : Int) - 1 = ex from by omega]
    · rw [if_neg hB1]
      cases digs with
      | nil => exact absurd rfl hne
      | cons d0 rest =>
        have hlen : (d0 :: rest).length = rest.length + 1 := rfl
        have hmant := parseMantissa_take_drop (d0 :: rest) 1 (by omega)
          (by omega) hdig
        rw [show ((1 : ℤ)).toNat = 1 from rfl]
        simp only [List.map_cons, List.take_succ_cons, List.take_zero,
          List.drop_succ_cons, List.drop_zero, List.cons_append,
          List.nil_append] at hmant ⊢
        rw [parseSciChars_signed_exp sgn (digitChar d0)
          ('.' :: rest.map digitChar)
          ((digitsVal [d0] : ℚ)
            + (digitsVal rest : ℚ) / 10 ^ ((d0 :: rest).length - 1))
          (ex + ((d0 :: rest).length : Int) - 1)
          hmant
          ((digit_not_special _ (isDigit_digitChar d0
            (hdig d0 (by simp)))).2.2.2.1)
          ((digit_not_special _ (isDigit_digitChar d0
            (hdig d0 (by simp)))).2.2.2.2)
          (by
            intro x hx
            rcases List.mem_cons.mp hx with rfl | hx
            · exact fun hc => by
                rcases hc with hc | hc
                · exact (digit_not_special _ (isDigit_digitChar d0
                    (hdig d0 (by simp)))).1 hc
                · exact (digit_not_special _ (isDigit_digitChar d0
                    (hdig d0 (by simp)))).2.1 hc
            rcases List.mem_cons.mp hx with rfl | hx
            · decide
            · exact digits_noE _ (fun y hy => hdig y (by simp [hy])) x hx)]
        have hsplitn : digitsVal (d0 :: rest)
            = digitsVal [d0] * 10 ^ ((d0 :: rest).length - 1)
              + digitsVal rest := by
          have h := digitsVal_append [d0] rest
          rw [show (d0 :: rest).length - 1 = rest.length from by omega]
          exact h
        have hzp : (10 : ℚ) ^ (ex + ((d0 :: rest).length : Int) - 1)
            = (10 : ℚ) ^ ex * (10 : ℚ) ^ (((d0 :: rest).length - 1 : ℕ)) := by
          rw [show ex + ((d0 :: rest).length : Int) - 1
            = ex + (((d0 :: rest).length - 1 : ℕ) : ℤ) from by omega]
          exact zpow_int_add_nat ex _
        rw [hsplitn, hzp]
        push_cast
        have h10 : ((10 : ℚ) ^ ((d0 :: rest).length - 1 : ℕ)) ≠ 0 :=
          pow_ne_zero _ (by norm_num)
        field_simp
        ring

/-- Witness for C7 at the decimal `0.1` (sign `+`, coefficient `1`,
exponent `-1`): the normalizer yields the exact string `"0.1"`, whose
parsed value is exactly one tenth — a value no binary float represents. -/
theorem to_python_decimal_exact_witness :
    (⟨false, [1], -1⟩ : PyDecimal).WF
    ∧ to_python (.decimal ⟨false, [1], -1⟩) = .str "0.1"
    ∧ parseSciChars (pyDecimalChars ⟨false, [1], -1⟩) = some (1 / 10) := by
  have hwf : (⟨false, [1], -1⟩ : PyDecimal).WF := by decide
  have h := to_python_decimal_exact ⟨false, [1], -1⟩ hwf
  refine ⟨hwf, ?_, ?_⟩
  · rw [h.1]
    rfl
  · rw [h.2]
    congr 1
    rw [show decimalVal ⟨false, [1], -1⟩
      = 1 * ((digitsVal [1] : ℚ)) * (10 : ℚ) ^ (-1 : ℤ) from by
        simp [decimalVal]]
    norm_num [digitsVal, Nat.ofDigits]
